import Mathlib

/-!
# Verification of the astro-loader-quarto metadata pipeline

Shallow embedding of the metadata normalization, field mapping, schema
inference, sorting, caching and pipeline-orchestration code of the
`astro-loader-quarto` repository, together with proofs and refutations of
the specification claims about it.

JavaScript runtime values appearing in metadata maps are modelled by the
inductive type `Value`; `undefined` is an explicit constructor, since the
code repeatedly tests `=== undefined`.  JS objects and `Map`s are modelled
as insertion-ordered association lists (`List (String × Value)`), with
`jsAssign` reproducing the JS assignment semantics (an existing key keeps
its position, a new key is appended) and `jsGet` reproducing property
access (`undefined` for a missing key).  JS numbers and date time values
are modelled as `Int` (float edge cases play no role in the claims).

The file is organized as definitions first (the embedding of the source),
followed by all lemmas and claim theorems.
-/

set_option autoImplicit false

namespace QuartoLoader

/-- A JavaScript value as it occurs in parsed metadata: `undefined`,
string, number, boolean, `Date` (by its time value in milliseconds),
array, or nested object. -/
inductive Value where
  | vundef
  | vstr (s : String)
  | vnum (n : Int)
  | vbool (b : Bool)
  | vdate (time : Int)
  | varr (elems : List Value)
  | vmap (fields : List (String × Value))
  deriving Repr

mutual

/-- Boolean equality on `Value` (structural). -/
def Value.beq : Value → Value → Bool
  | Value.vundef, Value.vundef => true
  | Value.vstr a, Value.vstr b => a == b
  | Value.vnum a, Value.vnum b => a == b
  | Value.vbool a, Value.vbool b => a == b
  | Value.vdate a, Value.vdate b => a == b
  | Value.varr a, Value.varr b => Value.beqList a b
  | Value.vmap a, Value.vmap b => Value.beqMap a b
  | _, _ => false

/-- Boolean equality on lists of `Value`. -/
def Value.beqList : List Value → List Value → Bool
  | [], [] => true
  | x :: xs, y :: ys => Value.beq x y && Value.beqList xs ys
  | _, _ => false

/-- Boolean equality on association lists of `Value`. -/
def Value.beqMap : List (String × Value) → List (String × Value) → Bool
  | [], [] => true
  | (k1, v1) :: xs, (k2, v2) :: ys =>
    k1 == k2 && Value.beq v1 v2 && Value.beqMap xs ys
  | _, _ => false

end

mutual

/-- Soundness of `Value.beq` (a proof term used by the `DecidableEq`
instance below, hence phrased as a definition). -/
def Value.eq_of_beq : ∀ {a b : Value}, Value.beq a b = true → a = b
  | Value.vundef, Value.vundef, _ => rfl
  | Value.vstr a, Value.vstr b, h => by
    simp only [Value.beq] at h; exact congrArg Value.vstr (by simpa using h)
  | Value.vnum a, Value.vnum b, h => by
    simp only [Value.beq] at h; exact congrArg Value.vnum (by simpa using h)
  | Value.vbool a, Value.vbool b, h => by
    simp only [Value.beq] at h; exact congrArg Value.vbool (by simpa using h)
  | Value.vdate a, Value.vdate b, h => by
    simp only [Value.beq] at h; exact congrArg Value.vdate (by simpa using h)
  | Value.varr a, Value.varr b, h => by
    simp only [Value.beq] at h
    exact congrArg Value.varr (Value.eqList_of_beq h)
  | Value.vmap a, Value.vmap b, h => by
    simp only [Value.beq] at h
    exact congrArg Value.vmap (Value.eqMap_of_beq h)

/-- Soundness of `Value.beqList`. -/
def Value.eqList_of_beq : ∀ {a b : List Value}, Value.beqList a b = true → a = b
  | [], [], _ => rfl
  | x :: xs, y :: ys, h => by
    simp only [Value.beqList, Bool.and_eq_true] at h
    rw [Value.eq_of_beq h.1, Value.eqList_of_beq h.2]

/-- Soundness of `Value.beqMap`. -/
def Value.eqMap_of_beq :
    ∀ {a b : List (String × Value)}, Value.beqMap a b = true → a = b
  | [], [], _ => rfl
  | (k1, v1) :: xs, (k2, v2) :: ys, h => by
    simp only [Value.beqMap, Bool.and_eq_true] at h
    obtain ⟨⟨hk, hv⟩, ht⟩ := h
    rw [Value.eq_of_beq hv, Value.eqMap_of_beq ht,
      show k1 = k2 from by simpa using hk]

end

mutual

/-- Reflexivity of `Value.beq` (proof term for the instance below). -/
def Value.beq_refl : ∀ (a : Value), Value.beq a a = true
  | Value.vundef => rfl
  | Value.vstr a => by simp [Value.beq]
  | Value.vnum a => by simp [Value.beq]
  | Value.vbool a => by simp [Value.beq]
  | Value.vdate a => by simp [Value.beq]
  | Value.varr a => Value.beqList_refl a
  | Value.vmap a => Value.beqMap_refl a

/-- Reflexivity of `Value.beqList`. -/
def Value.beqList_refl : ∀ (a : List Value), Value.beqList a a = true
  | [] => rfl
  | x :: xs => by
    simp only [Value.beqList, Bool.and_eq_true]
    exact ⟨Value.beq_refl x, Value.beqList_refl xs⟩

/-- Reflexivity of `Value.beqMap`. -/
def Value.beqMap_refl : ∀ (a : List (String × Value)), Value.beqMap a a = true
  | [] => rfl
  | (k, v) :: xs => by
    simp only [Value.beqMap, Bool.and_eq_true]
    exact ⟨⟨by simp, Value.beq_refl v⟩, Value.beqMap_refl xs⟩

end

instance : DecidableEq Value := fun a b =>
  if h : Value.beq a b = true then isTrue (Value.eq_of_beq h)
  else isFalse (fun he => h (he ▸ Value.beq_refl a))

/-- A JS object / metadata map: insertion-ordered association list. -/
abbrev JSObject := List (String × Value)

/-- JS property read `m[k]`: `undefined` when the key is absent. -/
def jsGet (m : JSObject) (k : String) : Value :=
  match m.lookup k with
  | some v => v
  | none => Value.vundef

/-- JS property write `m[k] = v` (also `Map.set`): an existing key keeps
its position and gets the new value, a new key is appended. -/
def jsAssign {β : Type} (m : List (String × β)) (k : String) (v : β) :
    List (String × β) :=
  match m with
  | [] => [(k, v)]
  | (k1, v1) :: rest =>
    if k1 = k then (k, v) :: rest else (k1, v1) :: jsAssign rest k v

/-- JS truthiness of a `Value` (`undefined`, `""`, `0` and `false` are
falsy; `Date` objects, arrays and objects are always truthy). -/
def truthyValue : Value → Bool
  | Value.vundef => false
  | Value.vstr s => s ≠ ""
  | Value.vnum n => n ≠ 0
  | Value.vbool b => b
  | Value.vdate _ => true
  | Value.varr _ => true
  | Value.vmap _ => true

/-! ## Field mapper (`src/parsers/metadata-normalizer.ts`, `applyFieldMappings`)

A `FieldMappings` table is a JS `Record<string, string>`, modelled as a
lookup function; `none` models an absent key, and the JS truthiness test
`if (mappedKey && mappedKey !== key)` makes an empty-string target behave
like an absent mapping. -/

/-- `FieldMappingConflictError(quartoField, mappedField, existingField, filePath)`
as thrown by the source (`src/utils/errors.ts`). -/
structure FieldMappingConflict where
  quartoField : String
  mappedField : String
  existingField : String
  filePath : String
  deriving Repr, DecidableEq

/-- A field-mapping table: JS `Record<string, string>` lookup. -/
abbrev FieldMappings := String → Option String

/-- The built-in `DEFAULT_FIELD_MAPPINGS` table from
`src/types/loader-config.ts`. -/
def defaultFieldMappings : FieldMappings := fun k =>
  if k = "title" then some "title"
  else if k = "description" then some "description"
  else if k = "author" then some "author"
  else if k = "date" then some "pubDate"
  else if k = "date-modified" then some "updatedDate"
  else if k = "image" then some "heroImage"
  else if k = "categories" then some "categories"
  else if k = "tags" then some "tags"
  else if k = "draft" then some "draft"
  else none

/-- Loop body of `applyFieldMappings`: walk the entries of `metadata` in
insertion order, renaming keys into the accumulator `result`.  The
conflict test reads the original map (`metadata[mappedKey] !== undefined`),
exactly as the source does. -/
def applyFieldMappingsGo (orig : JSObject) (mappings : FieldMappings)
    (filePath : String) :
    List (String × Value) → JSObject → Except FieldMappingConflict JSObject
  | [], result => Except.ok result
  | (key, value) :: rest, result =>
    match mappings key with
    | some mappedKey =>
      if mappedKey ≠ "" ∧ mappedKey ≠ key then
        if jsGet orig mappedKey ≠ Value.vundef then
          Except.error ⟨key, mappedKey, mappedKey, filePath⟩
        else
          applyFieldMappingsGo orig mappings filePath rest
            (jsAssign result mappedKey value)
      else
        applyFieldMappingsGo orig mappings filePath rest (jsAssign result key value)
    | none =>
      applyFieldMappingsGo orig mappings filePath rest (jsAssign result key value)

/-- `applyFieldMappings(metadata, mappings, filePath)` from
`src/parsers/metadata-normalizer.ts`. -/
def applyFieldMappings (metadata : JSObject) (mappings : FieldMappings)
    (filePath : String) : Except FieldMappingConflict JSObject :=
  applyFieldMappingsGo metadata mappings filePath metadata []

/-- The effective renaming the mapper applies to a key: the mapped target
when it is truthy and differs from the key, the key itself otherwise. -/
def mappedName (mappings : FieldMappings) (k : String) : String :=
  match mappings k with
  | some mk => if mk ≠ "" ∧ mk ≠ k then mk else k
  | none => k

/-- The conflict condition of the mapper for key `k`: a truthy mapping to
a different name whose target is already defined in the source map. -/
def conflictsAt (metadata : JSObject) (mappings : FieldMappings) (k : String) : Prop :=
  match mappings k with
  | some mk => mk ≠ "" ∧ mk ≠ k ∧ jsGet metadata mk ≠ Value.vundef
  | none => False

instance (metadata : JSObject) (mappings : FieldMappings) (k : String) :
    Decidable (conflictsAt metadata mappings k) := by
  unfold conflictsAt
  cases mappings k <;> infer_instance

/-! ## Slug derivation (`src/parsers/metadata-normalizer.ts`, `generateSlug`)

String processing is modelled on `List Char` with structural recursion.
`String.prototype.toLowerCase` is modelled by an ASCII table (`jsToLower`);
the regex character classes of the source are ASCII (`\w` is
`[A-Za-z0-9_]`), so non-ASCII case mapping cannot influence the output.
`\s` is modelled by `Char.isWhitespace` (space, tab, CR, LF); the exotic
whitespace code points it omits play no role in the claims. -/

/-- Split a character list at every occurrence of `sep`
(JS `String.prototype.split` with a single-character separator). -/
def splitOnChar (sep : Char) : List Char → List (List Char)
  | [] => [[]]
  | c :: rest =>
    let r := splitOnChar sep rest
    if c = sep then [] :: r
    else
      match r with
      | [] => [[c]]
      | h :: t => (c :: h) :: t

/-- `pre` is a prefix of `l`. -/
def listStartsWith : List Char → List Char → Bool
  | [], _ => true
  | _ :: _, [] => false
  | a :: as, b :: bs => a == b && listStartsWith as bs

/-- `suf` is a suffix of `l`. -/
def listEndsWith (suf l : List Char) : Bool :=
  listStartsWith suf.reverse l.reverse

/-- Drop a suffix of the given length from the end. -/
def dropSuffixL (l suf : List Char) : List Char :=
  (l.reverse.drop suf.length).reverse

/-- Node `path.basename(p)`: the part after the last separator, ignoring
trailing separators. -/
def nodeBasename (p : String) : String :=
  String.mk (((splitOnChar '/' p.toList).reverse.dropWhile
    (fun seg => seg.isEmpty)).headD [])

/-- Node `path.basename(p, ext)`: additionally strips `ext` when it is a
proper suffix of the basename (Node keeps the name when it equals the
extension). -/
def nodeBasenameStrip (p ext : String) : String :=
  let b := (nodeBasename p).toList
  let e := ext.toList
  if b ≠ e ∧ listEndsWith e b then String.mk (dropSuffixL b e) else String.mk b

/-- ASCII lowercasing, the fragment of `toLowerCase` the pipeline can
observe. -/
def jsToLower (c : Char) : Char :=
  match c with
  | 'A' => 'a' | 'B' => 'b' | 'C' => 'c' | 'D' => 'd' | 'E' => 'e'
  | 'F' => 'f' | 'G' => 'g' | 'H' => 'h' | 'I' => 'i' | 'J' => 'j'
  | 'K' => 'k' | 'L' => 'l' | 'M' => 'm' | 'N' => 'n' | 'O' => 'o'
  | 'P' => 'p' | 'Q' => 'q' | 'R' => 'r' | 'S' => 's' | 'T' => 't'
  | 'U' => 'u' | 'V' => 'v' | 'W' => 'w' | 'X' => 'x' | 'Y' => 'y'
  | 'Z' => 'z'
  | other => other

/-- JS regex `\w`: ASCII alphanumerics and underscore. -/
def isWordChar (c : Char) : Bool := c.isAlphanum || c == '_'

/-- Characters kept by the `[^\w\s-]` removal. -/
def keepSlugChar (c : Char) : Bool := isWordChar c || c.isWhitespace || c == '-'

/-- Characters collapsed by the `[\s_]+` replacement. -/
def isRunChar (c : Char) : Bool := c.isWhitespace || c == '_'

/-- Replace every maximal run of `[\s_]` characters by a single hyphen;
`inRun` records whether the previous character belonged to a run. -/
def collapseRuns : List Char → Bool → List Char
  | [], _ => []
  | c :: rest, inRun =>
    if isRunChar c then
      if inRun then collapseRuns rest true
      else '-' :: collapseRuns rest true
    else c :: collapseRuns rest false

/-- Trim leading and trailing hyphens (the `^-+|-+$` replacement). -/
def trimHyphens (l : List Char) : List Char :=
  ((l.dropWhile (fun c => c == '-')).reverse.dropWhile (fun c => c == '-')).reverse

/-- Does the list start with a `\d{4}-\d{2}-\d{2}-` date stamp? -/
def startsWithDateStamp : List Char → Bool
  | a :: b :: c :: d :: '-' :: e :: f :: '-' :: g :: h :: '-' :: _ =>
    a.isDigit && b.isDigit && c.isDigit && d.isDigit &&
    e.isDigit && f.isDigit && g.isDigit && h.isDigit
  | _ => false

/-- The date-stamp strip: `replace` of the leading pattern
`\d{4}-\d{2}-\d{2}-` with the empty string. -/
def stripDateStamp (l : List Char) : List Char :=
  if startsWithDateStamp l then l.drop 11 else l

/-- The filename-derived slug of `generateSlug`: basename without `.qmd`,
date stamp stripped, lower-cased, `[^\w\s-]` removed, `[\s_]+` collapsed
to hyphens, leading/trailing hyphens trimmed. -/
def slugFromFilename (filePath : String) : String :=
  let filename := nodeBasenameStrip filePath (".qmd")
  let slug := stripDateStamp filename.toList
  String.mk (trimHyphens (collapseRuns ((slug.map jsToLower).filter keepSlugChar) false))

/-- `generateSlug(filePath, title, slugify)`: the caller-supplied slugify
function is used verbatim when present together with a truthy title
(the `title as string` cast in the source is unchecked, so the model
passes the raw value); otherwise the slug is derived from the filename. -/
def generateSlug (filePath : String) (title : Value)
    (slugify : Option (Value → String)) : String :=
  match slugify with
  | some f => if truthyValue title then f title else slugFromFilename filePath
  | none => slugFromFilename filePath

/-! ## Metadata normalizer (`src/parsers/metadata-normalizer.ts`) -/

/-- `NormalizedEntry` from `src/types/quarto.ts`. -/
structure NormalizedEntry where
  id : String
  slug : String
  data : JSObject
  deriving Repr, DecidableEq

/-- `NormalizationOptions` from `src/types/loader-config.ts`.  The
`imageResolver` receives the raw field value because the `as string`
cast in `normalizeMetadata` is unchecked. -/
structure NormalizationOptions where
  basePath : String
  outputDir : String
  fieldMappings : FieldMappings
  slugify : Option (Value → String)
  imageResolver : Option (Value → String → Value)

/-- Failures `normalizeMetadata` can raise: the explicit
`FieldMappingConflictError` and the implicit JS `TypeError` of calling
`startsWith` on a non-string image value. -/
inductive NormalizeError where
  | mappingConflict (e : FieldMappingConflict)
  | jsTypeError (msg : String)
  deriving Repr

/-- `inheritListingDefaults(metadata, defaults)`: fill keys that are
`undefined` in the (growing) result from the defaults map. -/
def inheritListingDefaults (metadata defaults : JSObject) : JSObject :=
  defaults.foldl
    (fun result kv =>
      if jsGet result kv.1 = Value.vundef then jsAssign result kv.1 kv.2 else result)
    metadata

/-- Join path segments with a slash. -/
def joinSegs : List (List Char) → List Char
  | [] => []
  | [x] => x
  | x :: rest => x ++ '/' :: joinSegs rest

/-- Node `path.dirname` (the `..`-free fragment the normalizer can hit). -/
def nodeDirname (p : String) : String :=
  let segs := splitOnChar '/' p.toList
  if segs.length ≤ 1 then "."
  else if segs.dropLast.all (fun s => s.isEmpty) then "/"
  else String.mk (joinSegs segs.dropLast)

/-- Node `path.join` for the two-argument shapes the normalizer produces;
Node's `.`/`..` normalization is elided (no claim depends on it). -/
def pathJoin (a b : String) : String :=
  if a = "." then b else a ++ "/" ++ b

/-- `resolveImagePath(imagePath, qmdPath, options)`: custom resolver wins
unconditionally; absolute URLs pass through; relative paths resolve
against the `.qmd` file's directory. -/
def resolveImagePath (imagePath : Value) (qmdPath : String)
    (options : NormalizationOptions) : Except NormalizeError Value :=
  if ¬ truthyValue imagePath then Except.ok Value.vundef
  else
    match options.imageResolver with
    | some f => Except.ok (f imagePath qmdPath)
    | none =>
      match imagePath with
      | Value.vstr s =>
        if listStartsWith (("http://").toList) s.toList ||
            listStartsWith (("https://").toList) s.toList then
          Except.ok (Value.vstr s)
        else if !(listStartsWith (("/").toList) s.toList) then
          Except.ok (Value.vstr (pathJoin (nodeDirname qmdPath) s))
        else
          Except.ok (Value.vstr s)
      | _ => Except.error (NormalizeError.jsTypeError "imagePath.startsWith is not a function")

/-- Step 3 of `normalizeMetadata`: the image-field resolution
(`options.fieldMappings['image'] || 'image'`, then resolve when the value
is truthy). -/
def imageStage (mapped : JSObject) (filePath : String)
    (options : NormalizationOptions) : Except NormalizeError JSObject :=
  let imageFieldName :=
    match options.fieldMappings ("image") with
    | some m => if m ≠ "" then m else "image"
    | none => "image"
  if truthyValue (jsGet mapped imageFieldName) then
    match resolveImagePath (jsGet mapped imageFieldName) filePath options with
    | Except.error e => Except.error e
    | Except.ok resolved => Except.ok (jsAssign mapped imageFieldName resolved)
  else Except.ok mapped

/-- Steps 4 and 5 of `normalizeMetadata`: derive id and slug (both from
`generateSlug`) and default `draft` to `false` when it is `undefined`. -/
def normalizeFinish (filePath : String) (options : NormalizationOptions)
    (md2 : JSObject) : NormalizedEntry :=
  let entryId := generateSlug filePath (jsGet md2 ("title")) options.slugify
  let md3 :=
    if jsGet md2 ("draft") = Value.vundef then
      jsAssign md2 ("draft") (Value.vbool false)
    else md2
  ⟨entryId, entryId, md3⟩

/-- `normalizeMetadata(raw, filePath, options, listingDefaults)`:
defaults inheritance, field mapping, image resolution, id/slug
derivation, and the `draft` default, in the source's order. -/
def normalizeMetadata (raw : JSObject) (filePath : String)
    (options : NormalizationOptions) (listingDefaults : Option JSObject) :
    Except NormalizeError NormalizedEntry :=
  match applyFieldMappings
      (match listingDefaults with
       | some d => inheritListingDefaults raw d
       | none => raw)
      options.fieldMappings filePath with
  | Except.error e => Except.error (NormalizeError.mappingConflict e)
  | Except.ok mapped =>
    match imageStage mapped filePath options with
    | Except.error e => Except.error e
    | Except.ok md2 => Except.ok (normalizeFinish filePath options md2)

/-! ## Sorting (`src/parsers/listing-config.ts`, `applySortConfiguration`)

The generic TS function is polymorphic in the record type `T`; the model
takes the JS property access `a[field]` as the function `getField`.
`localeCompare` is modelled as code-unit string comparison (the claims
only exercise date fields).  `Array.prototype.sort` is a stable sort by
the comparator; the model uses a stable insertion sort, which agrees
with every stable sort for the comparators at hand. -/

/-- The `sort` configuration of a listing: absent, a single string, or an
array of strings (`sortConfig?: string | string[]`). -/
inductive SortConfig where
  | noCfg
  | one (s : String)
  | many (l : List String)

/-- The guard `if (!sortConfig) return entries` and the wrapping into an
array: `none` when the config is falsy. -/
def sortListOf : SortConfig → Option (List String)
  | SortConfig.noCfg => none
  | SortConfig.one s => if s = "" then none else some [s]
  | SortConfig.many l => some l

/-- `a.localeCompare(b)` modelled as code-unit comparison. -/
def localeCompare (a b : String) : Int :=
  if a < b then -1 else if b < a then 1 else 0

/-- The typed comparison of the sort comparator: dates by time value,
strings by `localeCompare`, numbers numerically, anything else `0`. -/
def valueCompare (aVal bVal : Value) : Int :=
  match aVal, bVal with
  | Value.vdate ta, Value.vdate tb => ta - tb
  | Value.vstr sa, Value.vstr sb => localeCompare sa sb
  | Value.vnum na, Value.vnum nb => na - nb
  | _, _ => 0

/-- The comparator closure of `applySortConfiguration`: for each
`"field direction"` string in order, missing values sort last, `desc`
negates the individual comparison, ties fall through to the next key. -/
def compareEntries {T : Type} (getField : T → String → Value) :
    List String → T → T → Int
  | [], _, _ => 0
  | sortField :: rest, a, b =>
    let parts := (splitOnChar ' ' sortField.toList).map String.mk
    let field := parts.headD ""
    let desc := (parts.get? 1).map (fun d => String.mk (d.toList.map jsToLower))
      == some "desc"
    let aVal := getField a field
    let bVal := getField b field
    if aVal = Value.vundef ∧ bVal = Value.vundef then
      compareEntries getField rest a b
    else if aVal = Value.vundef then 1
    else if bVal = Value.vundef then -1
    else
      let comparison := valueCompare aVal bVal
      if comparison ≠ 0 then (if desc then -comparison else comparison)
      else compareEntries getField rest a b

/-- Insert `x` after every element it does not strictly precede:
the stable-sort insertion step. -/
def jsInsert {T : Type} (cmp : T → T → Int) (x : T) : List T → List T
  | [] => [x]
  | y :: ys => if cmp x y < 0 then x :: y :: ys else y :: jsInsert cmp x ys

/-- Stable sort by a JS comparator (`[...entries].sort(cmp)`). -/
def jsStableSort {T : Type} (cmp : T → T → Int) (l : List T) : List T :=
  l.foldl (fun acc x => jsInsert cmp x acc) []

/-- `applySortConfiguration(entries, sortConfig)`, polymorphic over the
record type via its property access `getField`. -/
def applySortConfiguration {T : Type} (getField : T → String → Value)
    (entries : List T) (sortConfig : SortConfig) : List T :=
  match sortListOf sortConfig with
  | none => entries
  | some sorts => jsStableSort (compareEntries getField sorts) entries

/-- JS property access on a `NormalizedEntry` object literal
`{ id, slug, data }`: any other property is `undefined`. -/
def entryGet (e : NormalizedEntry) (field : String) : Value :=
  if field = "id" then Value.vstr e.id
  else if field = "slug" then Value.vstr e.slug
  else if field = "data" then Value.vmap e.data
  else Value.vundef

/-- Step 10 of the loader (`src/loader.ts`): the sort stage applied to
the listing's `NormalizedEntry` values. -/
def pipelineSort (entries : List NormalizedEntry) (sortConfig : SortConfig) :
    List NormalizedEntry :=
  applySortConfiguration entryGet entries sortConfig

/-- The sort order the specification describes for `"date desc"` on
date-or-missing fields: present dates in non-increasing time order,
missing dates after every present one. -/
def specDateDescLE (a b : JSObject) : Prop :=
  match jsGet a ("date"), jsGet b ("date") with
  | Value.vdate ta, Value.vdate tb => tb ≤ ta
  | Value.vdate _, Value.vundef => True
  | Value.vundef, Value.vdate _ => False
  | _, _ => True

/-- A record whose `date` field is a `Date` or missing (the domain of
the claim's general sort statement). -/
def dateOrMissing (a : JSObject) : Prop :=
  (∃ t, jsGet a ("date") = Value.vdate t) ∨ jsGet a ("date") = Value.vundef

/-! ## Pipeline stages (`src/loader.ts`)

The loader's parse, filter and transform stages each have a concurrent
branch (`Promise.all` over a `map`) and a strictly sequential branch
(an awaiting `reduce` / `for` loop that pushes into an accumulator).
With pure per-file parsing and pure hooks — the premise of the claim —
`Promise.all(xs.map(f))` resolves to exactly `xs.map(f)`, and the
sequential loops are left folds that append one result at a time. -/

/-- Concurrent parse stage: `Promise.all(resolved.files.map(parseFile))`. -/
def parseStageConc (parseFn : String → JSObject) (files : List String) :
    List (String × JSObject) :=
  files.map (fun f => (f, parseFn f))

/-- Sequential parse stage: the awaiting `reduce` that pushes each result. -/
def parseStageSeq (parseFn : String → JSObject) (files : List String) :
    List (String × JSObject) :=
  files.foldl (fun results file => results ++ [(file, parseFn file)]) []

/-- Concurrent filter stage: map each entry to `{entry, keep}`, then keep
the entries whose hook returned `true`. -/
def filterStageConc (filterFn : JSObject → Bool) (entries : List NormalizedEntry) :
    List NormalizedEntry :=
  ((entries.map (fun e => (e, filterFn e.data))).filter (fun r => r.2)).map
    (fun r => r.1)

/-- Sequential filter stage: the `for` loop pushing kept entries. -/
def filterStageSeq (filterFn : JSObject → Bool) (entries : List NormalizedEntry) :
    List NormalizedEntry :=
  entries.foldl (fun kept e => if filterFn e.data then kept ++ [e] else kept) []

/-- Concurrent transform stage: map each entry to a copy with transformed
data. -/
def transformStageConc (transformFn : JSObject → JSObject)
    (entries : List NormalizedEntry) : List NormalizedEntry :=
  entries.map (fun e => { e with data := transformFn e.data })

/-- Sequential transform stage: the `for` loop pushing transformed
entries. -/
def transformStageSeq (transformFn : JSObject → JSObject)
    (entries : List NormalizedEntry) : List NormalizedEntry :=
  entries.foldl (fun acc e => acc ++ [{ e with data := transformFn e.data }]) []

/-- The parse → normalize → filter → transform chain with
`parallel: true`.  Normalization (step 7) is outside the mode switch and
is shared verbatim. -/
def stagesConcurrent (parseFn : String → JSObject)
    (normFn : String → JSObject → NormalizedEntry)
    (filterFn : JSObject → Bool) (transformFn : JSObject → JSObject)
    (files : List String) : List NormalizedEntry :=
  transformStageConc transformFn
    (filterStageConc filterFn
      ((parseStageConc parseFn files).map (fun p => normFn p.1 p.2)))

/-- The same chain with `parallel: false`. -/
def stagesSequential (parseFn : String → JSObject)
    (normFn : String → JSObject → NormalizedEntry)
    (filterFn : JSObject → Bool) (transformFn : JSObject → JSObject)
    (files : List String) : List NormalizedEntry :=
  transformStageSeq transformFn
    (filterStageSeq filterFn
      ((parseStageSeq parseFn files).map (fun p => normFn p.1 p.2)))

/-! ## Schema inference (`src/schema/common-fields.ts`, `src/schema/generator.ts`)

Zod schemas are modelled by the inductive `ZodType`; the `_def.typeName`
tag used by the `allSameType` check is `typeName`. -/

/-- The Zod type descriptors the generator can build. -/
inductive ZodType where
  | zstring
  | znumber
  | zboolean
  | zdate
  | zunknown
  | zrecord
  | zarray (elem : ZodType)
  | zoptional (inner : ZodType)
  | zunion (opts : List ZodType)
  | zdefault (inner : ZodType) (dflt : Value)

/-- Zod's `_def.typeName` (the element type of an array does not show up
in it, exactly as in Zod). -/
def typeName : ZodType → String
  | ZodType.zstring => "ZodString"
  | ZodType.znumber => "ZodNumber"
  | ZodType.zboolean => "ZodBoolean"
  | ZodType.zdate => "ZodDate"
  | ZodType.zunknown => "ZodUnknown"
  | ZodType.zrecord => "ZodRecord"
  | ZodType.zarray _ => "ZodArray"
  | ZodType.zoptional _ => "ZodOptional"
  | ZodType.zunion _ => "ZodUnion"
  | ZodType.zdefault _ _ => "ZodDefault"

/-- Is the descriptor optional (`.optional()` at the top)? -/
def isOptionalType : ZodType → Bool
  | ZodType.zoptional _ => true
  | _ => false

/-- A generated object schema: field name to descriptor, in insertion
order. -/
abbrev Schema := List (String × ZodType)

/-- The `commonFields` table of `src/schema/common-fields.ts`. -/
def commonFieldsList : Schema :=
  [("title", ZodType.zstring),
   ("description", ZodType.zoptional ZodType.zstring),
   ("author", ZodType.zoptional (ZodType.zunion [ZodType.zstring, ZodType.zarray ZodType.zstring])),
   ("pubDate", ZodType.zdate),
   ("updatedDate", ZodType.zoptional ZodType.zdate),
   ("heroImage", ZodType.zoptional ZodType.zstring),
   ("categories", ZodType.zoptional (ZodType.zarray ZodType.zstring)),
   ("tags", ZodType.zoptional (ZodType.zarray ZodType.zstring)),
   ("draft", ZodType.zdefault ZodType.zboolean (Value.vbool false))]

/-- `getFieldSchema(fieldName)`. -/
def getFieldSchema (fieldName : String) : Option ZodType :=
  commonFieldsList.lookup fieldName

mutual

/-- `inferTypeFromValue(value)`: `null`/`undefined` to unknown, dates,
primitives, arrays by their first element, objects to open records. -/
def inferTypeFromValue : Value → ZodType
  | Value.vundef => ZodType.zunknown
  | Value.vdate _ => ZodType.zdate
  | Value.vstr _ => ZodType.zstring
  | Value.vnum _ => ZodType.znumber
  | Value.vbool _ => ZodType.zboolean
  | Value.varr l => inferArrType l
  | Value.vmap _ => ZodType.zrecord

/-- The array case of `inferTypeFromValue`: empty arrays give
`z.array(z.unknown())`, otherwise the element type is inferred from the
first element. -/
def inferArrType : List Value → ZodType
  | [] => ZodType.zarray ZodType.zunknown
  | x :: _ => ZodType.zarray (inferTypeFromValue x)

end

/-- `inferFieldType(fieldName, values)`: well-known fields use their
fixed descriptor; otherwise infer from the first defined value, fall
back to optional-unknown on mixed type names, and mark optional when
some value is `undefined`. -/
def inferFieldType (fieldName : String) (values : List Value) : ZodType :=
  match getFieldSchema fieldName with
  | some commonSchema => commonSchema
  | none =>
    let definedValues := values.filter (fun v => v != Value.vundef)
    match definedValues with
    | [] => ZodType.zoptional ZodType.zunknown
    | v0 :: _ =>
      let baseType := inferTypeFromValue v0
      let allSameType := definedValues.all
        (fun v => typeName (inferTypeFromValue v) == typeName baseType)
      if !allSameType then ZodType.zoptional ZodType.zunknown
      else if definedValues.length < values.length then ZodType.zoptional baseType
      else baseType

/-- `SchemaOptions` (the generator's options object); the
`requiredFields` loop in the source is a self-assignment and has no
effect, so only `customFields` can influence the result. -/
structure SchemaOptions where
  requiredFields : List String := []
  customFields : Option Schema := none

/-- Collect the union of field names over all documents, in first-seen
order (the JS `Set` insertion order). -/
def collectFieldNames (documents : List JSObject) : List String :=
  documents.foldl
    (fun acc doc =>
      doc.foldl (fun acc2 kv => if acc2.contains kv.1 then acc2 else acc2 ++ [kv.1]) acc)
    []

/-- The descriptor the generator stores for one observed field: a
caller-supplied custom descriptor when present, the inferred one
otherwise (the loop body of `generateSchema`). -/
def schemaFieldFor (documents : List JSObject) (options : SchemaOptions)
    (fieldName : String) : ZodType :=
  let values := documents.map (fun doc => jsGet doc fieldName)
  match options.customFields with
  | some cf =>
    match cf.lookup fieldName with
    | some custom => custom
    | none => inferFieldType fieldName values
  | none => inferFieldType fieldName values

/-- The per-field inference loop of `generateSchema`: one descriptor per
observed field name, in first-seen order. -/
def inferredFields (documents : List JSObject) (options : SchemaOptions) : Schema :=
  (collectFieldNames documents).foldl
    (fun sf fieldName => jsAssign sf fieldName (schemaFieldFor documents options fieldName))
    []

/-- The `if (!schemaFields['title'])` ensure step: default to
`commonFields.title` (`z.string()`). -/
def ensureTitle (s : Schema) : Schema :=
  if (s.lookup ("title")).isSome then s
  else jsAssign s ("title") ZodType.zstring

/-- The `if (!schemaFields['pubDate'] && !schemaFields['date'])` ensure
step: default to `commonFields.pubDate` (`z.date()`). -/
def ensurePubDate (s : Schema) : Schema :=
  if (s.lookup ("pubDate")).isSome ∨ (s.lookup ("date")).isSome then s
  else jsAssign s ("pubDate") ZodType.zdate

/-- `generateSchema(documents, _listing, options)`: infer a descriptor
for every observed field name, then unconditionally ensure `title` and
(`pubDate` or `date`) are present with their built-in descriptors. -/
def generateSchema (documents : List JSObject) (options : SchemaOptions) : Schema :=
  ensurePubDate (ensureTitle (inferredFields documents options))

/-- The user value supplied as `config.extend`: either a structurally
valid object schema, or a malformed value on which Zod's `merge` throws
(the `catch` branch of `applySchemaConfig`). -/
inductive ExtendInput where
  | valid (shape : Schema)
  | invalid (msg : String)

/-- `SchemaConfig` from `src/types/loader-config.ts`. -/
structure SchemaConfig where
  override : Option Schema := none
  extend : Option ExtendInput := none

/-- The JS spread-merge of two object shapes (`ZodObject.merge`): keys of
`a` in order with values overridden by `b`, then new keys of `b`. -/
def jsSpread (a b : Schema) : Schema :=
  b.foldl (fun acc kv => jsAssign acc kv.1 kv.2) a

/-- `baseSchema.merge(config.extend)`: merging a valid shape succeeds;
a malformed extend value throws. -/
def mergeObjects (base : Schema) : ExtendInput → Except String Schema
  | ExtendInput.valid shape => Except.ok (jsSpread base shape)
  | ExtendInput.invalid msg => Except.error msg

/-- `applySchemaConfig(baseSchema, config, logger)`: override wins
wholesale; otherwise a valid extend is merged with extension fields
winning; a failing merge logs a warning and falls back to the base
schema.  Returns the resulting schema and the warnings logged. -/
def applySchemaConfig (baseSchema : Schema) (config : Option SchemaConfig) :
    Schema × List String :=
  match config with
  | none => (baseSchema, [])
  | some cfg =>
    match cfg.override with
    | some ov => (ov, [])
    | none =>
      match cfg.extend with
      | some ext =>
        match mergeObjects baseSchema ext with
        | Except.ok merged => (merged, [])
        | Except.error msg =>
          (baseSchema,
           ["Schema merge conflict: " ++ msg ++ ". Using base schema."])
      | none => (baseSchema, [])

/-! ## Parse cache (`src/utils/cache.ts`, `FileCache`)

The JS `Map` is an insertion-ordered association list.  `stat` results
are supplied as a function from path to `Option (mtime, size)`; `none`
models a throwing `stat` (file gone). -/

/-- A cache entry: data plus the stat tag at parse time. -/
structure CacheEntry (α : Type) where
  data : α
  mtime : Int
  size : Int

/-- The `FileCache` state: the `Map` and `maxSize`. -/
structure FileCache (α : Type) where
  cache : List (String × CacheEntry α)
  maxSize : Nat

/-- A file-system snapshot for `stat`: modification time and size. -/
abbrev FStat := String → Option (Int × Int)

/-- `Map.delete`: remove the entry with the given key. -/
def mapDelete {α : Type} (m : List (String × CacheEntry α)) (k : String) :
    List (String × CacheEntry α) :=
  m.eraseP (fun kv => kv.1 == k)

/-- `get(path)`: miss when absent; on a stat failure or a changed tag,
evict and miss; on a hit, re-insert at the most-recently-used end. -/
def FileCache.get {α : Type} (fs : FStat) (path : String) (c : FileCache α) :
    FileCache α × Option α :=
  match c.cache.lookup path with
  | none => (c, none)
  | some entry =>
    match fs path with
    | none => ({ c with cache := mapDelete c.cache path }, none)
    | some (mt, sz) =>
      if mt = entry.mtime ∧ sz = entry.size then
        ({ c with cache := mapDelete c.cache path ++ [(path, entry)] }, some entry.data)
      else
        ({ c with cache := mapDelete c.cache path }, none)

/-- The eviction step of `set`: when the cache has reached `maxSize`,
delete the first key in map order (`this.cache.keys().next()`); with an
empty map `firstKey` is `undefined` and nothing is deleted. -/
def evictIfFull {α : Type} (c : FileCache α) : List (String × CacheEntry α) :=
  if c.cache.length ≥ c.maxSize then
    match c.cache with
    | [] => c.cache
    | (k, _) :: _ => mapDelete c.cache k
  else c.cache

/-- `set(path, data)`: skip silently when `stat` fails; evict the first
(map-order) key when `size >= maxSize`; then `Map.set` the new entry. -/
def FileCache.set {α : Type} (fs : FStat) (path : String) (data : α)
    (c : FileCache α) : FileCache α :=
  match fs path with
  | none => c
  | some (mt, sz) =>
    { c with cache := jsAssign (evictIfFull c) path ⟨data, mt, sz⟩ }

/-- `invalidate(path)`. -/
def FileCache.invalidate {α : Type} (path : String) (c : FileCache α) : FileCache α :=
  { c with cache := mapDelete c.cache path }

/-- `clear()`. -/
def FileCache.clearAll {α : Type} (c : FileCache α) : FileCache α :=
  { c with cache := [] }

/-- An operation against the cache, with the file-system snapshot it
observes. -/
inductive CacheOp (α : Type) where
  | get (fs : FStat) (path : String)
  | set (fs : FStat) (path : String) (data : α)
  | invalidate (path : String)
  | clear

/-- Apply one operation (discarding `get`'s returned value). -/
def applyCacheOp {α : Type} (c : FileCache α) : CacheOp α → FileCache α
  | CacheOp.get fs path => (FileCache.get fs path c).1
  | CacheOp.set fs path data => FileCache.set fs path data c
  | CacheOp.invalidate path => FileCache.invalidate path c
  | CacheOp.clear => FileCache.clearAll c

/-- Run a sequence of operations. -/
def runCacheOps {α : Type} (c : FileCache α) : List (CacheOp α) → FileCache α
  | [] => c
  | op :: rest => runCacheOps (applyCacheOp c op) rest

/-! ## Association list lemmas -/

theorem lookup_jsAssign_self {β : Type} (m : List (String × β)) (k : String) (v : β) :
    (jsAssign m k v).lookup k = some v := by
  induction m with
  | nil => simp [jsAssign, List.lookup]
  | cons kv rest ih =>
    obtain ⟨k1, v1⟩ := kv
    by_cases hk : k1 = k
    · subst hk
      simp [jsAssign, List.lookup]
    · have hbeq : (k == k1) = false := by
        simp only [beq_eq_false_iff_ne, ne_eq]
        exact fun he => hk he.symm
      simp [jsAssign, List.lookup, hk, hbeq, ih]

theorem lookup_jsAssign_ne {β : Type} (m : List (String × β)) (k k2 : String) (v : β)
    (hne : k2 ≠ k) : (jsAssign m k v).lookup k2 = m.lookup k2 := by
  induction m with
  | nil =>
    have hbeq : (k2 == k) = false := by
      simp only [beq_eq_false_iff_ne, ne_eq]
      exact hne
    simp [jsAssign, List.lookup, hbeq]
  | cons kv rest ih =>
    obtain ⟨k1, v1⟩ := kv
    by_cases hk : k1 = k
    · subst hk
      have hbeq : (k2 == k1) = false := by
        simp only [beq_eq_false_iff_ne, ne_eq]
        exact hne
      simp [jsAssign, List.lookup, hbeq]
    · cases hbe : (k2 == k1) with
      | true => simp [jsAssign, List.lookup, hk, hbe]
      | false => simp [jsAssign, List.lookup, hk, hbe, ih]

theorem length_jsAssign_le {β : Type} (m : List (String × β)) (k : String) (v : β) :
    (jsAssign m k v).length ≤ m.length + 1 := by
  induction m with
  | nil => simp [jsAssign]
  | cons kv rest ih =>
    obtain ⟨k1, v1⟩ := kv
    by_cases hk : k1 = k
    · simp [jsAssign, hk]
    · simp only [jsAssign, if_neg hk, List.length_cons]
      omega

theorem jsAssign_of_lookup_none {β : Type} (m : List (String × β)) (k : String) (v : β)
    (h : m.lookup k = none) : jsAssign m k v = m ++ [(k, v)] := by
  induction m with
  | nil => simp [jsAssign]
  | cons kv rest ih =>
    obtain ⟨k1, v1⟩ := kv
    cases hbe : (k == k1) with
    | true => simp [List.lookup, hbe] at h
    | false =>
      simp only [List.lookup, hbe] at h
      have hk : k1 ≠ k := by
        intro he
        simp [he] at hbe
      simp [jsAssign, hk, ih h]

/-! ## Field mapper lemmas -/

/-- If some entry of the processed list satisfies the conflict condition,
the mapper loop fails with a `FieldMappingConflict` naming such a key,
its target, and the file. -/
theorem applyFieldMappingsGo_error (orig : JSObject) (mappings : FieldMappings)
    (f : String) :
    ∀ (l : List (String × Value)) (acc : JSObject),
      (∃ p ∈ l, conflictsAt orig mappings p.1) →
      ∃ e, applyFieldMappingsGo orig mappings f l acc = Except.error e ∧
        conflictsAt orig mappings e.quartoField ∧
        mappings e.quartoField = some e.mappedField ∧
        e.existingField = e.mappedField ∧ e.filePath = f := by
  intro l
  induction l with
  | nil => intro acc h; simp at h
  | cons p rest ih =>
    intro acc h
    obtain ⟨key, value⟩ := p
    by_cases hc : conflictsAt orig mappings key
    · unfold conflictsAt at hc
      cases hmk : mappings key with
      | none => rw [hmk] at hc; exact absurd hc (by simp)
      | some mk =>
        rw [hmk] at hc
        obtain ⟨h1, h2, h3⟩ := hc
        refine ⟨⟨key, mk, mk, f⟩, ?_, ?_, ?_, rfl, rfl⟩
        · simp only [applyFieldMappingsGo, hmk]
          rw [if_pos ⟨h1, h2⟩, if_pos h3]
        · unfold conflictsAt
          rw [hmk]
          exact ⟨h1, h2, h3⟩
        · simpa using hmk
    · have hrest : ∃ p ∈ rest, conflictsAt orig mappings p.1 := by
        obtain ⟨q, hq, hqc⟩ := h
        rcases List.mem_cons.mp hq with heq | hmem
        · exact absurd hqc (by rw [heq]; exact hc)
        · exact ⟨q, hmem, hqc⟩
      unfold conflictsAt at hc
      cases hmk : mappings key with
      | none =>
        simp only [applyFieldMappingsGo, hmk]
        exact ih _ hrest
      | some mk =>
        rw [hmk] at hc
        simp only [applyFieldMappingsGo, hmk]
        by_cases hcond : mk ≠ "" ∧ mk ≠ key
        · rw [if_pos hcond]
          have hdef : ¬ jsGet orig mk ≠ Value.vundef := fun hd =>
            hc ⟨hcond.1, hcond.2, hd⟩
          rw [if_neg hdef]
          exact ih _ hrest
        · rw [if_neg hcond]
          exact ih _ hrest

/-- If no entry satisfies the conflict condition and the induced renamed
keys are pairwise distinct (and fresh in the accumulator), the mapper
loop returns the accumulator extended with every entry renamed. -/
theorem applyFieldMappingsGo_ok (orig : JSObject) (mappings : FieldMappings)
    (f : String) :
    ∀ (l : List (String × Value)) (acc : JSObject),
      (∀ p ∈ l, ¬ conflictsAt orig mappings p.1) →
      (l.map (fun p => mappedName mappings p.1)).Nodup →
      (∀ p ∈ l, acc.lookup (mappedName mappings p.1) = none) →
      applyFieldMappingsGo orig mappings f l acc
        = Except.ok (acc ++ l.map (fun p => (mappedName mappings p.1, p.2))) := by
  intro l
  induction l with
  | nil => intro acc _ _ _; simp [applyFieldMappingsGo]
  | cons p rest ih =>
    intro acc hnoc hnd hfresh
    obtain ⟨key, value⟩ := p
    have hkeyfresh : acc.lookup (mappedName mappings key) = none :=
      hfresh (key, value) (List.mem_cons_self _ _)
    have hndtail : (rest.map (fun p => mappedName mappings p.1)).Nodup :=
      (List.nodup_cons.mp hnd).2
    have hheadnotin : mappedName mappings key ∉
        rest.map (fun p => mappedName mappings p.1) :=
      (List.nodup_cons.mp hnd).1
    have hnoctail : ∀ p ∈ rest, ¬ conflictsAt orig mappings p.1 :=
      fun q hq => hnoc q (List.mem_cons_of_mem _ hq)
    have hfresh2 : ∀ p ∈ rest,
        (jsAssign acc (mappedName mappings key) value).lookup
          (mappedName mappings p.1) = none := by
      intro q hq
      have hne : mappedName mappings q.1 ≠ mappedName mappings key := by
        intro he
        exact hheadnotin (he ▸ List.mem_map_of_mem (fun p => mappedName mappings p.1) hq)
      rw [lookup_jsAssign_ne _ _ _ _ hne]
      exact hfresh q (List.mem_cons_of_mem _ hq)
    have hassign : jsAssign acc (mappedName mappings key) value
        = acc ++ [(mappedName mappings key, value)] :=
      jsAssign_of_lookup_none _ _ _ hkeyfresh
    have hnochead : ¬ conflictsAt orig mappings key :=
      hnoc (key, value) (List.mem_cons_self _ _)
    unfold conflictsAt at hnochead
    cases hmk : mappings key with
    | none =>
      simp only [applyFieldMappingsGo, hmk]
      have hmapped : mappedName mappings key = key := by
        unfold mappedName; rw [hmk]
      rw [hmapped] at hassign hfresh2
      rw [ih _ hnoctail hndtail hfresh2, hassign]
      simp [mappedName, hmk]
    | some mk =>
      rw [hmk] at hnochead
      simp only [applyFieldMappingsGo, hmk]
      by_cases hcond : mk ≠ "" ∧ mk ≠ key
      · have hmapped : mappedName mappings key = mk := by
          unfold mappedName
          rw [hmk]
          exact if_pos hcond
        rw [if_pos hcond]
        have hdef : ¬ jsGet orig mk ≠ Value.vundef := fun hd =>
          hnochead ⟨hcond.1, hcond.2, hd⟩
        rw [if_neg hdef]
        rw [hmapped] at hassign hfresh2
        rw [ih _ hnoctail hndtail hfresh2, hassign]
        simp [mappedName, hmk, hcond]
      · have hmapped : mappedName mappings key = key := by
          unfold mappedName
          rw [hmk]
          exact if_neg hcond
        rw [if_neg hcond]
        rw [hmapped] at hassign hfresh2
        rw [ih _ hnoctail hndtail hfresh2, hassign]
        simp only [List.map_cons, List.append_assoc, List.singleton_append]
        simp [mappedName, hmk, hcond]

/-! ## Slug pipeline lemmas -/

theorem jsToLower_cases (a : Char) :
    jsToLower a = a ∨ jsToLower a ∈
      (['a', 'b', 'c', 'd', 'e', 'f', 'g', 'h', 'i', 'j', 'k', 'l', 'm',
        'n', 'o', 'p', 'q', 'r', 's', 't', 'u', 'v', 'w', 'x', 'y', 'z'] : List Char) := by
  unfold jsToLower
  split <;> first | (right; decide) | (left; rfl)

theorem jsToLower_idem (a : Char) : jsToLower (jsToLower a) = jsToLower a := by
  rcases jsToLower_cases a with h | h
  · rw [h]
    exact h
  · simp only [List.mem_cons, List.not_mem_nil, or_false] at h
    rcases h with h|h|h|h|h|h|h|h|h|h|h|h|h|h|h|h|h|h|h|h|h|h|h|h|h|h <;>
      rw [h] <;> decide

theorem mem_collapseRuns :
    ∀ (l : List Char) (b : Bool) (c : Char), c ∈ collapseRuns l b →
      c = '-' ∨ (c ∈ l ∧ isRunChar c = false) := by
  intro l
  induction l with
  | nil => intro b c h; simp [collapseRuns] at h
  | cons x rest ih =>
    intro b c h
    by_cases hx : isRunChar x = true
    · simp only [collapseRuns, if_pos hx] at h
      by_cases hb : b = true
      · rw [if_pos hb] at h
        rcases ih true c h with h1 | ⟨h2, h3⟩
        · exact Or.inl h1
        · exact Or.inr ⟨List.mem_cons_of_mem _ h2, h3⟩
      · rw [if_neg hb] at h
        rcases List.mem_cons.mp h with h1 | h1
        · exact Or.inl h1
        · rcases ih true c h1 with h2 | ⟨h3, h4⟩
          · exact Or.inl h2
          · exact Or.inr ⟨List.mem_cons_of_mem _ h3, h4⟩
    · simp only [collapseRuns, if_neg hx] at h
      rcases List.mem_cons.mp h with h1 | h1
      · subst h1
        exact Or.inr ⟨List.mem_cons_self _ _, Bool.of_not_eq_true hx⟩
      · rcases ih false c h1 with h2 | ⟨h3, h4⟩
        · exact Or.inl h2
        · exact Or.inr ⟨List.mem_cons_of_mem _ h3, h4⟩

theorem collapseRuns_eq_self (l : List Char) (b : Bool)
    (h : ∀ c ∈ l, isRunChar c = false) : collapseRuns l b = l := by
  induction l generalizing b with
  | nil => rfl
  | cons x rest ih =>
    have hx : isRunChar x = false := h x (List.mem_cons_self _ _)
    simp only [collapseRuns, hx, Bool.false_eq_true, if_false]
    rw [ih false (fun c hc => h c (List.mem_cons_of_mem _ hc))]

theorem mem_dropWhile {α : Type} (q : α → Bool) :
    ∀ (l : List α) (c : α), c ∈ l.dropWhile q → c ∈ l := by
  intro l
  induction l with
  | nil => intro c h; simp [List.dropWhile] at h
  | cons x rest ih =>
    intro c h
    by_cases hx : q x = true
    · simp only [List.dropWhile, hx] at h
      exact List.mem_cons_of_mem _ (ih c h)
    · simp only [List.dropWhile, Bool.not_eq_true] at h
      rw [Bool.of_not_eq_true hx] at h
      exact h

theorem mem_trimHyphens (l : List Char) (c : Char) (h : c ∈ trimHyphens l) : c ∈ l := by
  unfold trimHyphens at h
  rw [List.mem_reverse] at h
  have h2 := mem_dropWhile _ _ _ h
  rw [List.mem_reverse] at h2
  exact mem_dropWhile _ _ _ h2

theorem dropWhile_eq_self_of_head {α : Type} (q : α → Bool) (m : List α)
    (h : ∀ c, m.head? = some c → q c = false) : m.dropWhile q = m := by
  cases m with
  | nil => rfl
  | cons x rest =>
    have hx : q x = false := h x rfl
    simp [List.dropWhile, hx]

theorem head_dropWhile_false {α : Type} (q : α → Bool) :
    ∀ (m : List α) (c : α), (m.dropWhile q).head? = some c → q c = false := by
  intro m
  induction m with
  | nil => intro c h; simp [List.dropWhile] at h
  | cons x rest ih =>
    intro c h
    by_cases hx : q x = true
    · simp only [List.dropWhile, hx] at h
      exact ih c h
    · have hx2 := Bool.of_not_eq_true hx
      simp only [List.dropWhile, hx2, Bool.false_eq_true, if_false, List.head?_cons,
        Option.some.injEq] at h
      rw [← h]
      exact hx2

theorem dropWhile_idem {α : Type} (q : α → Bool) (m : List α) :
    (m.dropWhile q).dropWhile q = m.dropWhile q :=
  dropWhile_eq_self_of_head q _ (head_dropWhile_false q m)

theorem last_dropWhile {α : Type} (q : α → Bool) :
    ∀ (w : List α), w.dropWhile q ≠ [] →
      (w.dropWhile q).reverse.head? = w.reverse.head? := by
  intro w
  induction w with
  | nil => intro h; simp [List.dropWhile] at h
  | cons x rest ih =>
    intro h
    by_cases hx : q x = true
    · simp only [List.dropWhile, hx] at h ⊢
      have hrest : rest.dropWhile q ≠ [] := h
      have hrestne : rest ≠ [] := by
        intro he
        rw [he] at hrest
        exact hrest rfl
      rw [ih hrest]
      rw [List.reverse_cons]
      cases hr : rest.reverse with
      | nil =>
        exact absurd (by simpa using hr) hrestne
      | cons y ys => simp [hr]
    · have hx2 := Bool.of_not_eq_true hx
      simp [List.dropWhile, hx2]

theorem trimHyphens_head (l : List Char) (c : Char)
    (h : (trimHyphens l).head? = some c) : (c == '-') = false := by
  unfold trimHyphens at h
  set p : Char → Bool := fun c => c == '-' with hp
  set l1 := l.dropWhile p with hl1
  set v := l1.reverse.dropWhile p with hv
  by_cases hvnil : v = []
  · rw [hvnil] at h
    simp at h
  · have hlast := last_dropWhile p l1.reverse hvnil
    rw [List.reverse_reverse] at hlast
    rw [← hv] at hlast
    rw [hlast] at h
    exact head_dropWhile_false p l c h

theorem trimHyphens_idem (l : List Char) :
    trimHyphens (trimHyphens l) = trimHyphens l := by
  set p : Char → Bool := fun c => c == '-' with hp
  set t := trimHyphens l with ht
  have h1 : t.dropWhile p = t :=
    dropWhile_eq_self_of_head p t (fun c hc => trimHyphens_head l c hc)
  show ((t.dropWhile p).reverse.dropWhile p).reverse = t
  rw [h1]
  have h3 : t.reverse = (l.dropWhile p).reverse.dropWhile p := by
    rw [ht]
    show (((l.dropWhile p).reverse.dropWhile p).reverse).reverse = _
    rw [List.reverse_reverse]
  have h2 : t.reverse.dropWhile p = t.reverse := by
    rw [h3, dropWhile_idem]
  rw [h2, List.reverse_reverse]

theorem mem_of_listStartsWith :
    ∀ (pre l : List Char), listStartsWith pre l = true → ∀ c ∈ pre, c ∈ l := by
  intro pre
  induction pre with
  | nil => intro l _ c hc; simp at hc
  | cons a as ih =>
    intro l h c hc
    cases l with
    | nil => simp [listStartsWith] at h
    | cons b bs =>
      simp only [listStartsWith, Bool.and_eq_true, beq_iff_eq] at h
      rcases List.mem_cons.mp hc with h1 | h1
      · rw [h1, h.1]
        exact List.mem_cons_self _ _
      · exact List.mem_cons_of_mem _ (ih bs h.2 c h1)

theorem mem_of_listEndsWith (suf l : List Char) (h : listEndsWith suf l = true) :
    ∀ c ∈ suf, c ∈ l := by
  intro c hc
  unfold listEndsWith at h
  have := mem_of_listStartsWith _ _ h c (List.mem_reverse.mpr hc)
  exact List.mem_reverse.mp this

theorem splitOnChar_eq_single (sep : Char) :
    ∀ (l : List Char), (∀ c ∈ l, c ≠ sep) → splitOnChar sep l = [l] := by
  intro l
  induction l with
  | nil => intro _; rfl
  | cons c rest ih =>
    intro h
    have hc : c ≠ sep := h c (List.mem_cons_self _ _)
    have hrest := ih (fun x hx => h x (List.mem_cons_of_mem _ hx))
    simp only [splitOnChar, if_neg hc, hrest]

theorem map_eq_self_of {α : Type} (f : α → α) :
    ∀ (l : List α), (∀ c ∈ l, f c = c) → l.map f = l := by
  intro l
  induction l with
  | nil => intro _; rfl
  | cons x rest ih =>
    intro h
    rw [List.map_cons, h x (List.mem_cons_self _ _),
      ih (fun c hc => h c (List.mem_cons_of_mem _ hc))]

theorem filter_eq_self_of {α : Type} (q : α → Bool) :
    ∀ (l : List α), (∀ c ∈ l, q c = true) → l.filter q = l := by
  intro l
  induction l with
  | nil => intro _; rfl
  | cons x rest ih =>
    intro h
    rw [List.filter_cons_of_pos (h x (List.mem_cons_self _ _)),
      ih (fun c hc => h c (List.mem_cons_of_mem _ hc))]

theorem nodeBasename_of_no_slash (s : String) (h : ∀ c ∈ s.toList, c ≠ '/') :
    nodeBasename s = s := by
  unfold nodeBasename
  rw [splitOnChar_eq_single _ _ h]
  cases ht : s.toList with
  | nil =>
    simp only [List.reverse_singleton, ht, List.dropWhile]
    exact congrArg String.mk ht.symm
  | cons c cs =>
    simp only [List.reverse_singleton, ht, List.dropWhile, List.isEmpty_cons,
      Bool.false_eq_true, if_false, List.headD_cons]
    exact congrArg String.mk ht.symm

/-- Every character of a filename-derived slug is kept by the slug
character class, is not a whitespace-or-underscore run character, and is
fixed by lowercasing. -/
theorem slugFromFilename_chars (p : String) (c : Char)
    (h : c ∈ (slugFromFilename p).toList) :
    keepSlugChar c = true ∧ isRunChar c = false ∧ jsToLower c = c := by
  have h2 : c ∈ collapseRuns
      (((stripDateStamp (nodeBasenameStrip p (".qmd")).toList).map jsToLower).filter
        keepSlugChar) false :=
    mem_trimHyphens _ c h
  rcases mem_collapseRuns _ _ _ h2 with hc | ⟨hmem, hrun⟩
  · subst hc
    exact ⟨by decide, by decide, by decide⟩
  · have hkeep := List.of_mem_filter hmem
    have hmap := List.mem_of_mem_filter hmem
    obtain ⟨a, _, ha⟩ := List.mem_map.mp hmap
    refine ⟨hkeep, hrun, ?_⟩
    rw [← ha]
    exact jsToLower_idem a

/-- A string whose characters are slug characters, that is already
hyphen-trimmed and does not start with a date stamp, is a fixed point of
the filename-derived slug. -/
theorem slugFromFilename_fixed (o : String)
    (hchars : ∀ c ∈ o.toList,
      keepSlugChar c = true ∧ isRunChar c = false ∧ jsToLower c = c)
    (htrim : trimHyphens o.toList = o.toList)
    (hdate : startsWithDateStamp o.toList = false) :
    slugFromFilename o = o := by
  have hnoslash : ∀ c ∈ o.toList, c ≠ '/' := by
    intro c hc he
    have := (hchars c hc).1
    rw [he] at this
    exact absurd this (by decide)
  have hbase : nodeBasename o = o := nodeBasename_of_no_slash o hnoslash
  have hnodot : ∀ c ∈ o.toList, c ≠ '.' := by
    intro c hc he
    have := (hchars c hc).1
    rw [he] at this
    exact absurd this (by decide)
  have hstrip : nodeBasenameStrip o (".qmd") = o := by
    unfold nodeBasenameStrip
    rw [hbase]
    have hends : ¬ (o.toList ≠ (".qmd").toList ∧
        listEndsWith ((".qmd").toList) o.toList = true) := by
      rintro ⟨_, hend⟩
      have hdot : '.' ∈ o.toList :=
        mem_of_listEndsWith _ _ hend '.' (by decide)
      exact hnodot '.' hdot rfl
    rw [if_neg hends]
    rfl
  rw [slugFromFilename, hstrip]
  rw [show stripDateStamp o.toList = o.toList from by
    unfold stripDateStamp; rw [hdate]; simp]
  rw [map_eq_self_of _ _ (fun c hc => (hchars c hc).2.2)]
  rw [filter_eq_self_of _ _ (fun c hc => (hchars c hc).1)]
  rw [collapseRuns_eq_self _ _ (fun c hc => (hchars c hc).2.1)]
  rw [htrim]
  rfl

/-- The hyphen-trim step is idempotent on derived slugs. -/
theorem slugFromFilename_trim (p : String) :
    trimHyphens (slugFromFilename p).toList = (slugFromFilename p).toList :=
  trimHyphens_idem _

/-! ## Pipeline stage lemmas -/

theorem foldl_push_eq_map {α β : Type} (f : α → β) :
    ∀ (l : List α) (init : List β),
      l.foldl (fun acc x => acc ++ [f x]) init = init ++ l.map f := by
  intro l
  induction l with
  | nil => intro init; simp
  | cons x rest ih =>
    intro init
    simp only [List.foldl_cons, List.map_cons]
    rw [ih]
    simp

theorem foldl_keep_eq_filter {α : Type} (q : α → Bool) :
    ∀ (l : List α) (init : List α),
      l.foldl (fun kept e => if q e then kept ++ [e] else kept) init
        = init ++ l.filter q := by
  intro l
  induction l with
  | nil => intro init; simp
  | cons x rest ih =>
    intro init
    by_cases hx : q x = true
    · simp only [List.foldl_cons, if_pos hx, List.filter_cons_of_pos hx]
      rw [ih]
      simp
    · have hx2 := Bool.of_not_eq_true hx
      simp only [List.foldl_cons, hx2, Bool.false_eq_true, if_false,
        List.filter_cons]
      exact ih init

theorem map_filter_map_eq_filter {α : Type} (q : α → Bool) :
    ∀ (l : List α),
      ((l.map (fun e => (e, q e))).filter (fun r => r.2)).map (fun r => r.1)
        = l.filter q := by
  intro l
  induction l with
  | nil => rfl
  | cons x rest ih =>
    simp only [List.map_cons, List.filter_cons]
    by_cases hx : q x = true
    · simp [hx, ih]
    · have hx2 := Bool.of_not_eq_true hx
      simp [hx2, ih]

/-! ## Schema inference lemmas -/

theorem lookup_isSome_of_mem (m : JSObject) (kv : String × Value) (h : kv ∈ m) :
    (m.lookup kv.1).isSome = true := by
  induction m with
  | nil => simp at h
  | cons p rest ih =>
    obtain ⟨k1, v1⟩ := p
    rcases List.mem_cons.mp h with h1 | h1
    · subst h1
      simp [List.lookup]
    · cases hbe : (kv.1 == k1) with
      | true => simp [List.lookup, hbe]
      | false =>
        simp only [List.lookup, hbe]
        exact ih h1

theorem mem_inner_collect (k : String) :
    ∀ (doc : JSObject) (acc : List String),
      k ∈ doc.foldl (fun acc2 kv => if acc2.contains kv.1 then acc2 else acc2 ++ [kv.1]) acc →
      k ∈ acc ∨ ∃ kv ∈ doc, kv.1 = k := by
  intro doc
  induction doc with
  | nil => intro acc h; exact Or.inl h
  | cons kv rest ih =>
    intro acc h
    simp only [List.foldl_cons] at h
    rcases ih _ h with h1 | ⟨q, hq, hqk⟩
    · by_cases hc : acc.contains kv.1
      · rw [if_pos hc] at h1
        exact Or.inl h1
      · rw [if_neg hc] at h1
        rcases List.mem_append.mp h1 with h2 | h2
        · exact Or.inl h2
        · simp only [List.mem_singleton] at h2
          exact Or.inr ⟨kv, List.mem_cons_self _ _, h2.symm⟩
    · exact Or.inr ⟨q, List.mem_cons_of_mem _ hq, hqk⟩

theorem mem_collectFieldNames (docs : List JSObject) (k : String)
    (h : k ∈ collectFieldNames docs) : ∃ doc ∈ docs, (doc.lookup k).isSome = true := by
  unfold collectFieldNames at h
  suffices hgen : ∀ (ds : List JSObject) (acc : List String),
      k ∈ ds.foldl (fun acc doc =>
        doc.foldl (fun acc2 kv => if acc2.contains kv.1 then acc2 else acc2 ++ [kv.1]) acc) acc →
      k ∈ acc ∨ ∃ doc ∈ ds, (doc.lookup k).isSome = true by
    rcases hgen docs [] h with h1 | h1
    · simp at h1
    · exact h1
  intro ds
  induction ds with
  | nil => intro acc h2; exact Or.inl h2
  | cons doc rest ih =>
    intro acc h2
    simp only [List.foldl_cons] at h2
    rcases ih _ h2 with h1 | ⟨d, hd, hds⟩
    · rcases mem_inner_collect k doc acc h1 with h3 | ⟨kv, hkv, hkvk⟩
      · exact Or.inl h3
      · refine Or.inr ⟨doc, List.mem_cons_self _ _, ?_⟩
        rw [← hkvk]
        exact lookup_isSome_of_mem doc kv hkv
    · exact Or.inr ⟨d, List.mem_cons_of_mem _ hd, hds⟩

theorem foldl_jsAssign_lookup_notmem {β : Type} (tf : String → β) :
    ∀ (names : List String) (init : List (String × β)) (k : String), k ∉ names →
      (names.foldl (fun sf n => jsAssign sf n (tf n)) init).lookup k = init.lookup k := by
  intro names
  induction names with
  | nil => intro init k _; rfl
  | cons n rest ih =>
    intro init k hk
    simp only [List.foldl_cons]
    rw [ih _ _ (fun hm => hk (List.mem_cons_of_mem _ hm))]
    exact lookup_jsAssign_ne _ _ _ _ (fun he => hk (he ▸ List.mem_cons_self _ _))

/-- A field absent from a strict subset of the values and not among the
nine well-known names is inferred optional. -/
theorem inferFieldType_optional (fieldName : String) (values : List Value)
    (h1 : getFieldSchema fieldName = none)
    (h2 : (values.filter (fun v => v != Value.vundef)).length < values.length) :
    isOptionalType (inferFieldType fieldName values) = true := by
  unfold inferFieldType
  rw [h1]
  cases hd : values.filter (fun v => v != Value.vundef) with
  | nil => rfl
  | cons v0 vs =>
    rw [hd] at h2
    by_cases hs : ((v0 :: vs).all
        (fun v => typeName (inferTypeFromValue v) == typeName (inferTypeFromValue v0))) = true
    · simp only [hs, Bool.not_true, Bool.false_eq_true, if_false, if_pos h2]
      rfl
    · have hs2 := Bool.of_not_eq_true hs
      simp only [hs2, Bool.not_false, if_true]
      rfl

theorem notmem_collect_of_absent (docs : List JSObject) (k : String)
    (h : ∀ doc ∈ docs, doc.lookup k = none) : k ∉ collectFieldNames docs := by
  intro hmem
  obtain ⟨doc, hdoc, hsome⟩ := mem_collectFieldNames docs k hmem
  rw [h doc hdoc] at hsome
  simp at hsome

/-! ## Schema merge and cache lemmas -/

theorem lookup_eq_none_of_notkey {β : Type} (m : List (String × β)) (k : String)
    (h : k ∉ m.map Prod.fst) : m.lookup k = none := by
  induction m with
  | nil => rfl
  | cons kv rest ih =>
    obtain ⟨k1, v1⟩ := kv
    have hne : k ≠ k1 := by
      intro he
      exact h (by simp [he])
    have hbeq : (k == k1) = false := by
      simp only [beq_eq_false_iff_ne, ne_eq]
      exact hne
    simp only [List.lookup, hbeq]
    exact ih (fun hm => h (by simp at hm ⊢; exact Or.inr hm))

theorem lookup_jsSpread :
    ∀ (b a : Schema), (b.map Prod.fst).Nodup → ∀ (k : String),
      (jsSpread a b).lookup k
        = match b.lookup k with
          | some t => some t
          | none => a.lookup k := by
  intro b
  induction b with
  | nil => intro a _ k; rfl
  | cons kv rest ih =>
    intro a hnd k
    obtain ⟨k1, t1⟩ := kv
    simp only [List.map_cons, List.nodup_cons] at hnd
    have hstep : jsSpread a ((k1, t1) :: rest) = jsSpread (jsAssign a k1 t1) rest := rfl
    rw [hstep, ih (jsAssign a k1 t1) hnd.2 k]
    by_cases hk : k = k1
    · subst hk
      rw [lookup_eq_none_of_notkey rest k hnd.1]
      simp [List.lookup, lookup_jsAssign_self]
    · have hbeq : (k == k1) = false := by
        simp only [beq_eq_false_iff_ne, ne_eq]
        exact hk
      simp only [List.lookup, hbeq]
      cases hr : rest.lookup k with
      | some t => rfl
      | none => exact lookup_jsAssign_ne _ _ _ _ hk

theorem length_mapDelete_le {α : Type} (m : List (String × CacheEntry α)) (k : String) :
    (mapDelete m k).length ≤ m.length := by
  unfold mapDelete
  induction m with
  | nil => simp
  | cons kv rest ih =>
    simp only [List.eraseP_cons]
    cases hp : (kv.1 == k) with
    | true =>
      simp only [cond_true, List.length_cons]
      omega
    | false =>
      simp only [cond_false, List.length_cons]
      omega

theorem length_mapDelete_of_isSome {α : Type} (m : List (String × CacheEntry α))
    (k : String) (h : (m.lookup k).isSome = true) :
    (mapDelete m k).length + 1 = m.length := by
  unfold mapDelete
  induction m with
  | nil => simp [List.lookup] at h
  | cons kv rest ih =>
    obtain ⟨k1, e1⟩ := kv
    simp only [List.eraseP_cons]
    cases hp : ((k1, e1).1 == k) with
    | true => simp
    | false =>
      have hbe : (k == k1) = false := by
        simp only [beq_eq_false_iff_ne, ne_eq]
        intro he
        simp [he] at hp
      simp only [List.lookup, hbe] at h
      simp only [cond_false, List.length_cons]
      rw [ih h]

theorem mem_keys_jsAssign {β : Type} (m : List (String × β)) (k k2 : String) (v : β)
    (h : k2 ∈ (jsAssign m k v).map Prod.fst) : k2 ∈ m.map Prod.fst ∨ k2 = k := by
  induction m with
  | nil =>
    simp [jsAssign] at h
    exact Or.inr h
  | cons kv rest ih =>
    obtain ⟨k1, v1⟩ := kv
    by_cases hk : k1 = k
    · simp only [jsAssign, if_pos hk, List.map_cons] at h
      rcases List.mem_cons.mp h with h1 | h1
      · exact Or.inr h1
      · exact Or.inl (by simp; right; simpa using h1)
    · simp only [jsAssign, if_neg hk, List.map_cons] at h
      rcases List.mem_cons.mp h with h1 | h1
      · exact Or.inl (by simp [h1])
      · rcases ih h1 with h2 | h2
        · exact Or.inl (by simp at h2 ⊢; exact Or.inr h2)
        · exact Or.inr h2

theorem nodup_keys_jsAssign {β : Type} (m : List (String × β)) (k : String) (v : β)
    (h : (m.map Prod.fst).Nodup) : ((jsAssign m k v).map Prod.fst).Nodup := by
  induction m with
  | nil => simp [jsAssign]
  | cons kv rest ih =>
    obtain ⟨k1, v1⟩ := kv
    simp only [List.map_cons, List.nodup_cons] at h
    by_cases hk : k1 = k
    · simp only [jsAssign, if_pos hk, List.map_cons, List.nodup_cons]
      exact ⟨hk ▸ h.1, h.2⟩
    · simp only [jsAssign, if_neg hk, List.map_cons, List.nodup_cons]
      refine ⟨?_, ih h.2⟩
      intro hmem
      rcases mem_keys_jsAssign rest k k1 v hmem with h1 | h1
      · exact h.1 h1
      · exact hk h1

theorem nodup_keys_mapDelete {α : Type} (m : List (String × CacheEntry α)) (k : String)
    (h : (m.map Prod.fst).Nodup) : ((mapDelete m k).map Prod.fst).Nodup := by
  unfold mapDelete
  have hsub : List.Sublist ((m.eraseP (fun kv => kv.1 == k)).map Prod.fst)
      (m.map Prod.fst) :=
    List.Sublist.map _ (List.eraseP_sublist _)
  exact h.sublist hsub

theorem lookup_mapDelete_self {α : Type} (m : List (String × CacheEntry α)) (k : String)
    (h : (m.map Prod.fst).Nodup) : (mapDelete m k).lookup k = none := by
  unfold mapDelete
  induction m with
  | nil => rfl
  | cons kv rest ih =>
    obtain ⟨k1, e1⟩ := kv
    simp only [List.map_cons, List.nodup_cons] at h
    simp only [List.eraseP_cons]
    cases hp : ((k1, e1).1 == k) with
    | true =>
      simp only [cond_true]
      have hkk : k = k1 := by
        have := eq_of_beq hp
        simpa using this.symm
      subst hkk
      exact lookup_eq_none_of_notkey rest k h.1
    | false =>
      have hbe : (k == k1) = false := by
        simp only [beq_eq_false_iff_ne, ne_eq]
        intro he
        simp [he] at hp
      simp only [cond_false, List.lookup, hbe]
      exact ih h.2

end QuartoLoader

namespace QuartoLoader


theorem length_jsAssign_evict {α : Type} (c : FileCache α) (path : String)
    (e : CacheEntry α) (h : c.cache.length ≤ max c.maxSize 1) :
    (jsAssign (evictIfFull c) path e).length ≤ max c.maxSize 1 := by
  have h2 := length_jsAssign_le (evictIfFull c) path e
  by_cases hge : c.cache.length ≥ c.maxSize
  · cases hcc : c.cache with
    | nil =>
      have he : evictIfFull c = [] := by
        unfold evictIfFull
        rw [hcc]
        split
        · rfl
        · rfl
      rw [he]
      simp only [jsAssign, List.length_singleton]
      exact le_max_right _ _
    | cons kv rest =>
      obtain ⟨k0, e0⟩ := kv
      have he : evictIfFull c = mapDelete ((k0, e0) :: rest) k0 := by
        unfold evictIfFull
        rw [if_pos hge, hcc]
      have h1 : (mapDelete ((k0, e0) :: rest) k0).length + 1
          = ((k0, e0) :: rest).length := by
        apply length_mapDelete_of_isSome
        simp [List.lookup]
      rw [he] at h2
      have hh : c.cache.length ≤ max c.maxSize 1 := h
      rw [hcc] at hh
      calc (jsAssign (evictIfFull c) path e).length
          = (jsAssign (mapDelete ((k0, e0) :: rest) k0) path e).length := by rw [he]
        _ ≤ (mapDelete ((k0, e0) :: rest) k0).length + 1 := h2
        _ = ((k0, e0) :: rest).length := h1
        _ ≤ max c.maxSize 1 := hh
  · have he : evictIfFull c = c.cache := by
      unfold evictIfFull
      rw [if_neg hge]
    rw [he] at h2
    rw [he]
    have h3 : c.cache.length < c.maxSize := lt_of_not_ge hge
    have h4 : c.maxSize ≤ max c.maxSize 1 := le_max_left _ _
    omega

theorem cacheOp_preserves {α : Type} (c : FileCache α) (op : CacheOp α)
    (h : c.cache.length ≤ max c.maxSize 1) :
    (applyCacheOp c op).cache.length ≤ max c.maxSize 1 ∧
    (applyCacheOp c op).maxSize = c.maxSize := by
  cases op with
  | get fs path =>
    simp only [applyCacheOp, FileCache.get]
    split
    · exact ⟨h, by trivial⟩
    · rename_i entry hl
      split
      · exact ⟨le_trans (length_mapDelete_le _ _) h, by trivial⟩
      · rename_i mt sz hf
        split
        · rename_i hc
          refine ⟨?_, by trivial⟩
          have h1 : (mapDelete c.cache path).length + 1 = c.cache.length :=
            length_mapDelete_of_isSome c.cache path (by rw [hl]; rfl)
          simp only [List.length_append, List.length_cons, List.length_nil]
          calc (mapDelete c.cache path).length + (0 + 1) = c.cache.length := by omega
            _ ≤ max c.maxSize 1 := h
        · exact ⟨le_trans (length_mapDelete_le _ _) h, by trivial⟩
  | set fs path data =>
    simp only [applyCacheOp, FileCache.set]
    split
    · exact ⟨h, by trivial⟩
    · exact ⟨length_jsAssign_evict c path _ h, by trivial⟩
  | invalidate path =>
    simp only [applyCacheOp, FileCache.invalidate]
    exact ⟨le_trans (length_mapDelete_le _ _) h, by trivial⟩
  | clear =>
    simp only [applyCacheOp, FileCache.clearAll]
    exact ⟨by simp, by trivial⟩

theorem runCacheOps_bound {α : Type} :
    ∀ (ops : List (CacheOp α)) (c : FileCache α),
      c.cache.length ≤ max c.maxSize 1 →
      (runCacheOps c ops).cache.length ≤ max c.maxSize 1 ∧
      (runCacheOps c ops).maxSize = c.maxSize := by
  intro ops
  induction ops with
  | nil => intro c h; exact ⟨h, rfl⟩
  | cons op rest ih =>
    intro c h
    have hstep := cacheOp_preserves c op h
    have hrec := ih (applyCacheOp c op) (hstep.2 ▸ hstep.1)
    simp only [runCacheOps]
    exact ⟨hstep.2 ▸ hrec.1, hrec.2.trans hstep.2⟩

/-! ## Sort order lemmas -/


theorem cmpDD_eq (a b : JSObject) :
    compareEntries jsGet [("date desc")] a b =
      (if jsGet a ("date") = Value.vundef ∧ jsGet b ("date") = Value.vundef then (0 : Int)
       else if jsGet a ("date") = Value.vundef then 1
       else if jsGet b ("date") = Value.vundef then -1
       else if valueCompare (jsGet a ("date")) (jsGet b ("date")) ≠ 0 then
         -(valueCompare (jsGet a ("date")) (jsGet b ("date")))
       else 0) := rfl

theorem specDateDescLE_of_lt (a b : JSObject) (ha : dateOrMissing a)
    (hb : dateOrMissing b)
    (h : compareEntries jsGet [("date desc")] a b < 0) : specDateDescLE a b := by
  rw [cmpDD_eq] at h
  unfold specDateDescLE
  rcases ha with ⟨ta, hta⟩ | hta <;> rcases hb with ⟨tb, htb⟩ | htb <;>
    rw [hta, htb] at h ⊢
  · simp only [Value.vdate.injEq] at h ⊢
    by_cases hne : valueCompare (Value.vdate ta) (Value.vdate tb) ≠ 0
    · rw [if_neg (by simp), if_neg (by simp), if_neg (by simp), if_pos hne] at h
      simp only [valueCompare] at h
      omega
    · rw [if_neg (by simp), if_neg (by simp), if_neg (by simp), if_neg hne] at h
      omega
  · trivial
  · rw [if_neg (by simp), if_pos rfl] at h
    omega
  · trivial

theorem specDateDescLE_of_not_lt (a b : JSObject) (ha : dateOrMissing a)
    (hb : dateOrMissing b)
    (h : ¬ compareEntries jsGet [("date desc")] a b < 0) : specDateDescLE b a := by
  rw [cmpDD_eq] at h
  unfold specDateDescLE
  rcases ha with ⟨ta, hta⟩ | hta <;> rcases hb with ⟨tb, htb⟩ | htb <;>
    rw [hta, htb] at h ⊢
  · by_cases hne : valueCompare (Value.vdate ta) (Value.vdate tb) ≠ 0
    · rw [if_neg (by simp), if_neg (by simp), if_neg (by simp), if_pos hne] at h
      simp only [valueCompare] at h hne
      omega
    · simp only [valueCompare] at hne
      have : ta = tb := by omega
      omega
  · rw [if_neg (by simp), if_neg (by simp), if_pos rfl] at h
    omega
  · trivial
  · trivial

theorem specDateDescLE_trans (a b c : JSObject) (ha : dateOrMissing a)
    (hb : dateOrMissing b) (hc : dateOrMissing c)
    (h1 : specDateDescLE a b) (h2 : specDateDescLE b c) : specDateDescLE a c := by
  rcases ha with ⟨ta, hta⟩ | hta <;> rcases hb with ⟨tb, htb⟩ | htb <;>
    rcases hc with ⟨tc, htc⟩ | htc
  · unfold specDateDescLE at h1 h2 ⊢
    rw [hta, htb] at h1
    rw [htb, htc] at h2
    rw [hta, htc]
    have g1 : tb ≤ ta := h1
    have g2 : tc ≤ tb := h2
    show tc ≤ ta
    omega
  · unfold specDateDescLE
    rw [hta, htc]
    trivial
  · unfold specDateDescLE at h2
    rw [htb, htc] at h2
    exact h2.elim
  · unfold specDateDescLE
    rw [hta, htc]
    trivial
  · unfold specDateDescLE at h1
    rw [hta, htb] at h1
    exact h1.elim
  · unfold specDateDescLE at h1
    rw [hta, htb] at h1
    exact h1.elim
  · unfold specDateDescLE at h2
    rw [htb, htc] at h2
    exact h2.elim
  · unfold specDateDescLE
    rw [hta, htc]
    trivial

theorem mem_jsInsert {T : Type} (cmp : T → T → Int) (x : T) :
    ∀ (l : List T) (z : T), z ∈ jsInsert cmp x l → z = x ∨ z ∈ l := by
  intro l
  induction l with
  | nil =>
    intro z h
    simp [jsInsert] at h
    exact Or.inl h
  | cons y ys ih =>
    intro z h
    simp only [jsInsert] at h
    by_cases hc : cmp x y < 0
    · rw [if_pos hc] at h
      rcases List.mem_cons.mp h with h1 | h1
      · exact Or.inl h1
      · exact Or.inr h1
    · rw [if_neg hc] at h
      rcases List.mem_cons.mp h with h1 | h1
      · exact Or.inr (h1 ▸ List.mem_cons_self _ _)
      · rcases ih z h1 with h2 | h2
        · exact Or.inl h2
        · exact Or.inr (List.mem_cons_of_mem _ h2)

theorem jsInsert_perm {T : Type} (cmp : T → T → Int) (x : T) :
    ∀ (l : List T), (jsInsert cmp x l).Perm (x :: l) := by
  intro l
  induction l with
  | nil => simp [jsInsert]
  | cons y ys ih =>
    simp only [jsInsert]
    by_cases hc : cmp x y < 0
    · rw [if_pos hc]
    · rw [if_neg hc]
      exact (List.Perm.cons y ih).trans (List.Perm.swap x y ys)



theorem jsInsert_pairwise_dd (x : JSObject) :
    ∀ (l : List JSObject), dateOrMissing x → (∀ a ∈ l, dateOrMissing a) →
      l.Pairwise specDateDescLE →
      (jsInsert (compareEntries jsGet [("date desc")]) x l).Pairwise specDateDescLE := by
  intro l
  induction l with
  | nil => intro _ _ _; simp [jsInsert]
  | cons y ys ih =>
    intro hx hl hp
    have hy : dateOrMissing y := hl y (List.mem_cons_self _ _)
    have hys : ∀ a ∈ ys, dateOrMissing a := fun a ha => hl a (List.mem_cons_of_mem _ ha)
    rcases List.pairwise_cons.mp hp with ⟨hyz, hpys⟩
    simp only [jsInsert]
    by_cases hc : compareEntries jsGet [("date desc")] x y < 0
    · rw [if_pos hc]
      refine List.pairwise_cons.mpr ⟨?_, hp⟩
      intro z hz
      rcases List.mem_cons.mp hz with h1 | h1
      · exact h1 ▸ specDateDescLE_of_lt x y hx hy hc
      · exact specDateDescLE_trans x y z hx hy (hys z h1)
          (specDateDescLE_of_lt x y hx hy hc) (hyz z h1)
    · rw [if_neg hc]
      refine List.pairwise_cons.mpr ⟨?_, ih hx hys hpys⟩
      intro z hz
      rcases mem_jsInsert _ x ys z hz with h1 | h1
      · exact h1 ▸ specDateDescLE_of_not_lt x y hx hy hc
      · exact hyz z h1

theorem foldl_insert_perm {T : Type} (cmp : T → T → Int) :
    ∀ (l acc : List T),
      (l.foldl (fun acc x => jsInsert cmp x acc) acc).Perm (acc ++ l) := by
  intro l
  induction l with
  | nil => intro acc; simp
  | cons x rest ih =>
    intro acc
    simp only [List.foldl_cons]
    have h1 := ih (jsInsert cmp x acc)
    have h3 : (jsInsert cmp x acc).Perm (x :: acc) := jsInsert_perm cmp x acc
    have h2 : (jsInsert cmp x acc ++ rest).Perm (acc ++ x :: rest) :=
      (h3.append_right rest).trans List.perm_middle.symm
    exact h1.trans h2

theorem foldl_insert_pairwise :
    ∀ (l acc : List JSObject), (∀ a ∈ l, dateOrMissing a) →
      (∀ a ∈ acc, dateOrMissing a) → acc.Pairwise specDateDescLE →
      (l.foldl (fun acc x => jsInsert (compareEntries jsGet [("date desc")]) x acc)
        acc).Pairwise specDateDescLE := by
  intro l
  induction l with
  | nil => intro acc _ _ hp; exact hp
  | cons x rest ih =>
    intro acc hl hacc hp
    simp only [List.foldl_cons]
    have hx : dateOrMissing x := hl x (List.mem_cons_self _ _)
    refine ih _ (fun a ha => hl a (List.mem_cons_of_mem _ ha)) ?_ ?_
    · intro a ha
      rcases mem_jsInsert _ x acc a ha with h1 | h1
      · exact h1 ▸ hx
      · exact hacc a h1
    · exact jsInsert_pairwise_dd x acc hx hacc hp

/-- The generic `applySortConfiguration` on bare data maps whose `date`
field is a date or missing: for `"date desc"` the output is a
permutation of the input sorted by the specification's order (dates
non-increasing, missing after every present date). -/
theorem applySortConfiguration_dateDesc_spec (l : List JSObject)
    (hl : ∀ a ∈ l, dateOrMissing a) :
    (applySortConfiguration jsGet l (SortConfig.one ("date desc"))).Pairwise
      specDateDescLE ∧
    (applySortConfiguration jsGet l (SortConfig.one ("date desc"))).Perm l := by
  have he : applySortConfiguration jsGet l (SortConfig.one ("date desc"))
      = jsStableSort (compareEntries jsGet [("date desc")]) l := rfl
  rw [he]
  unfold jsStableSort
  constructor
  · exact foldl_insert_pairwise l [] hl (by simp) (by simp)
  · simpa using foldl_insert_perm (compareEntries jsGet [("date desc")]) l []


/-! ## Claim theorems -/

/-- C4 (amended): for every capacity `N` and every operation sequence
run against an initially empty `FileCache`, the number of stored entries
never exceeds `max N 1`.  The original bound `N` fails at `N = 0`: the
eviction guard `size >= maxSize` deletes nothing from an empty map and
`Map.set` then stores the entry, so capacity `0` does not disable
caching inside `FileCache` (see `claim_C4_counterexample`; the loader
disables caching separately via its `cache` flag, by skipping the
`get`/`set` calls altogether). -/
theorem claim_C4_cache_bound {α : Type} (N : Nat) (ops : List (CacheOp α)) :
    (runCacheOps (⟨[], N⟩ : FileCache α) ops).cache.length ≤ max N 1 :=
  (runCacheOps_bound ops ⟨[], N⟩ (by simp)).1

/-- C4 counterexample: with capacity `0`, one `set` on a stat-able file
stores an entry (size `1 > 0`) and a subsequent `get` retrieves it, so
capacity `0` does not disable caching and the entry count exceeds `N`. -/
theorem claim_C4_counterexample :
    (FileCache.set (fun _ => some (1, 1)) "a.qmd" (Value.vstr "d")
      (⟨[], 0⟩ : FileCache Value)).cache.length = 1 ∧
    (FileCache.get (fun _ => some (1, 1)) "a.qmd"
      (FileCache.set (fun _ => some (1, 1)) "a.qmd" (Value.vstr "d")
        (⟨[], 0⟩ : FileCache Value))).2 = some (Value.vstr "d") :=
  ⟨rfl, rfl⟩

/-- C5: after `set(path, data)` on a stat-able file (with duplicate-free
cache keys), a `get(path)` that observes the same modification time and
size returns the cached data, and a `get(path)` that observes a changed
modification time or size misses and evicts the key. -/
theorem claim_C5_cache_get_set {α : Type} (c : FileCache α) (path : String)
    (data : α) (fs1 fs2 fs3 : FStat) (mt sz mt3 sz3 : Int)
    (h1 : fs1 path = some (mt, sz))
    (h2 : fs2 path = some (mt, sz))
    (h3 : fs3 path = some (mt3, sz3))
    (h4 : ¬ (mt3 = mt ∧ sz3 = sz))
    (hnd : (c.cache.map Prod.fst).Nodup) :
    (FileCache.get fs2 path (FileCache.set fs1 path data c)).2 = some data ∧
    (FileCache.get fs3 path (FileCache.set fs1 path data c)).2 = none ∧
    ((FileCache.get fs3 path (FileCache.set fs1 path data c)).1.cache.lookup path)
      = none := by
  have hset : (FileCache.set fs1 path data c).cache.lookup path
      = some (⟨data, mt, sz⟩ : CacheEntry α) := by
    simp only [FileCache.set, h1]
    exact lookup_jsAssign_self _ _ _
  have hevnd : ((evictIfFull c).map Prod.fst).Nodup := by
    unfold evictIfFull
    split
    · split
      · exact hnd
      · exact nodup_keys_mapDelete _ _ hnd
    · exact hnd
  have hsetnd : ((FileCache.set fs1 path data c).cache.map Prod.fst).Nodup := by
    simp only [FileCache.set, h1]
    exact nodup_keys_jsAssign _ _ _ hevnd
  refine ⟨?_, ?_, ?_⟩
  · simp only [FileCache.get, hset, h2]
    simp
  · simp only [FileCache.get, hset, h3]
    rw [if_neg h4]
  · simp only [FileCache.get, hset, h3]
    rw [if_neg h4]
    exact lookup_mapDelete_self _ _ hsetnd

/-- C5 witness: a concrete `set` followed by an unchanged-stat hit and a
changed-mtime miss-and-evict, via `claim_C5_cache_get_set`. -/
theorem claim_C5_witness :
    (FileCache.get (fun _ => some (1, 2)) "a.qmd"
      (FileCache.set (fun _ => some (1, 2)) "a.qmd" (Value.vstr "d")
        (⟨[], 5⟩ : FileCache Value))).2 = some (Value.vstr "d") ∧
    (FileCache.get (fun _ => some (9, 2)) "a.qmd"
      (FileCache.set (fun _ => some (1, 2)) "a.qmd" (Value.vstr "d")
        (⟨[], 5⟩ : FileCache Value))).2 = none ∧
    ((FileCache.get (fun _ => some (9, 2)) "a.qmd"
      (FileCache.set (fun _ => some (1, 2)) "a.qmd" (Value.vstr "d")
        (⟨[], 5⟩ : FileCache Value))).1.cache.lookup "a.qmd") = none :=
  claim_C5_cache_get_set (⟨[], 5⟩ : FileCache Value) "a.qmd" (Value.vstr "d")
    (fun _ => some (1, 2)) (fun _ => some (1, 2)) (fun _ => some (9, 2))
    1 2 9 2 rfl rfl rfl (by decide) (by decide)

/-- C6: with pure per-file parsing and pure filter and transform hooks,
the concurrent pipeline (`Promise.all` fan-out) and the strictly
sequential pipeline produce the identical final entry list. -/
theorem claim_C6_modes_agree (parseFn : String → JSObject)
    (normFn : String → JSObject → NormalizedEntry)
    (filterFn : JSObject → Bool) (transformFn : JSObject → JSObject)
    (files : List String) :
    stagesConcurrent parseFn normFn filterFn transformFn files
      = stagesSequential parseFn normFn filterFn transformFn files := by
  have hparse : parseStageSeq parseFn files = parseStageConc parseFn files := by
    unfold parseStageSeq parseStageConc
    rw [foldl_push_eq_map]
    simp
  have hfilter : ∀ l, filterStageSeq filterFn l = filterStageConc filterFn l := by
    intro l
    unfold filterStageSeq filterStageConc
    rw [foldl_keep_eq_filter, map_filter_map_eq_filter]
    simp
  have htransform : ∀ l, transformStageSeq transformFn l
      = transformStageConc transformFn l := by
    intro l
    unfold transformStageSeq transformStageConc
    rw [foldl_push_eq_map]
    simp
  unfold stagesConcurrent stagesSequential
  rw [hparse, hfilter, htransform]

/-- C1 (code bug): the loader's sort stage (step 10) passes the
`NormalizedEntry` wrapper objects to `applySortConfiguration`, whose
comparator reads `a[field]`; a wrapper only has keys `id`, `slug` and
`data`, so `a["date"]` is `undefined` for every entry and `"date desc"`
leaves the order unchanged — the claim's scenario yields the input order
`[2025-01-01, 2025-03-01, missing]` rather than
`[2025-03-01, 2025-01-01, missing]`.  The second conjunct shows the
generic function applied to the bare data maps does produce the
specified order, locating the slip in the loader's call site. -/
theorem claim_C1_pipeline_sort_date_desc :
    pipelineSort
      [⟨"a", "a", [("title", Value.vstr "A"), ("date", Value.vdate 1735689600000)]⟩,
       ⟨"b", "b", [("title", Value.vstr "B"), ("date", Value.vdate 1740787200000)]⟩,
       ⟨"c", "c", [("title", Value.vstr "C")]⟩]
      (SortConfig.one "date desc")
      = [⟨"a", "a", [("title", Value.vstr "A"), ("date", Value.vdate 1735689600000)]⟩,
         ⟨"b", "b", [("title", Value.vstr "B"), ("date", Value.vdate 1740787200000)]⟩,
         ⟨"c", "c", [("title", Value.vstr "C")]⟩] ∧
    applySortConfiguration jsGet
      [[("title", Value.vstr "A"), ("date", Value.vdate 1735689600000)],
       [("title", Value.vstr "B"), ("date", Value.vdate 1740787200000)],
       [("title", Value.vstr "C")]]
      (SortConfig.one "date desc")
      = [[("title", Value.vstr "B"), ("date", Value.vdate 1740787200000)],
         [("title", Value.vstr "A"), ("date", Value.vdate 1735689600000)],
         [("title", Value.vstr "C")]] ∧
    ([⟨"a", "a", [("title", Value.vstr "A"), ("date", Value.vdate 1735689600000)]⟩,
      ⟨"b", "b", [("title", Value.vstr "B"), ("date", Value.vdate 1740787200000)]⟩,
      ⟨"c", "c", [("title", Value.vstr "C")]⟩] : List NormalizedEntry)
      ≠ [⟨"b", "b", [("title", Value.vstr "B"), ("date", Value.vdate 1740787200000)]⟩,
         ⟨"a", "a", [("title", Value.vstr "A"), ("date", Value.vdate 1735689600000)]⟩,
         ⟨"c", "c", [("title", Value.vstr "C")]⟩] :=
  ⟨by decide, by decide, by decide⟩

/-- C2 (amended): schema inference marks a field optional whenever it is
present in a strict subset of the listing's entries **and the field is
not one of the nine well-known names** (those always receive their fixed
built-in descriptors — see `claim_C2_counterexample`), and the final
schema always contains `title` and `pubDate` (when neither `pubDate` nor
a pre-mapped `date` was observed) with their built-in required
descriptors even when absent from all observed documents. -/
theorem claim_C2_schema_inference (fieldName : String) (values : List Value)
    (docs : List JSObject) (opts : SchemaOptions)
    (h1 : getFieldSchema fieldName = none)
    (h2 : (values.filter (fun v => v != Value.vundef)).length < values.length)
    (h3 : ∀ doc ∈ docs, doc.lookup ("title") = none)
    (h4 : ∀ doc ∈ docs, doc.lookup ("pubDate") = none ∧ doc.lookup ("date") = none) :
    isOptionalType (inferFieldType fieldName values) = true ∧
    (generateSchema docs opts).lookup ("title") = some ZodType.zstring ∧
    (generateSchema docs opts).lookup ("pubDate") = some ZodType.zdate := by
  refine ⟨inferFieldType_optional fieldName values h1 h2, ?_⟩
  have hsfT : (inferredFields docs opts).lookup ("title") = none := by
    unfold inferredFields
    rw [foldl_jsAssign_lookup_notmem _ _ _ _
      (notmem_collect_of_absent docs _ h3)]
    rfl
  have hsfP : (inferredFields docs opts).lookup ("pubDate") = none := by
    unfold inferredFields
    rw [foldl_jsAssign_lookup_notmem _ _ _ _
      (notmem_collect_of_absent docs _ (fun d hd => (h4 d hd).1))]
    rfl
  have hsfD : (inferredFields docs opts).lookup ("date") = none := by
    unfold inferredFields
    rw [foldl_jsAssign_lookup_notmem _ _ _ _
      (notmem_collect_of_absent docs _ (fun d hd => (h4 d hd).2))]
    rfl
  have hwt : ensureTitle (inferredFields docs opts)
      = jsAssign (inferredFields docs opts) ("title") ZodType.zstring := by
    unfold ensureTitle
    rw [hsfT]
    rfl
  have hwtP : (ensureTitle (inferredFields docs opts)).lookup ("pubDate") = none := by
    rw [hwt, lookup_jsAssign_ne _ _ _ _ (by decide), hsfP]
  have hwtD : (ensureTitle (inferredFields docs opts)).lookup ("date") = none := by
    rw [hwt, lookup_jsAssign_ne _ _ _ _ (by decide), hsfD]
  have hfinal : generateSchema docs opts
      = jsAssign (ensureTitle (inferredFields docs opts)) ("pubDate") ZodType.zdate := by
    unfold generateSchema ensurePubDate
    rw [hwtP, hwtD]
    simp
  constructor
  · rw [hfinal, lookup_jsAssign_ne _ _ _ _ (by decide), hwt,
      lookup_jsAssign_self]
  · rw [hfinal, lookup_jsAssign_self]

/-- C2 witness: a custom field present in one of two values is optional,
and a document set with neither `title` nor `pubDate` nor `date` still
yields a schema containing both defaults, via
`claim_C2_schema_inference`. -/
theorem claim_C2_witness :
    isOptionalType (inferFieldType "wordcount" [Value.vnum 3, Value.vundef]) = true ∧
    (generateSchema [[("other", Value.vnum 1)]] {}).lookup ("title") = some ZodType.zstring ∧
    (generateSchema [[("other", Value.vnum 1)]] {}).lookup ("pubDate") = some ZodType.zdate :=
  claim_C2_schema_inference "wordcount" [Value.vnum 3, Value.vundef]
    [[("other", Value.vnum 1)]] {} rfl (by decide) (by decide) (by decide)

/-- C2 counterexample: `title` is present in only one of two documents
(a strict subset), yet the inferred schema gives it the well-known
required descriptor `z.string()`, not an optional one — the common-field
check in `inferFieldType` runs before the presence count, refuting the
claim's parenthetical "including the nine well-known ones". -/
theorem claim_C2_counterexample :
    ((([[("title", Value.vstr "x")], [("other", Value.vnum 1)]] : List JSObject).map
       (fun doc => jsGet doc ("title"))).filter (fun v => v != Value.vundef)).length
      < ([[("title", Value.vstr "x")], [("other", Value.vnum 1)]] : List JSObject).length ∧
    (generateSchema [[("title", Value.vstr "x")], [("other", Value.vnum 1)]] {}).lookup ("title")
      = some ZodType.zstring ∧
    isOptionalType ZodType.zstring = false :=
  ⟨by decide, rfl, rfl⟩

/-- C3 (amended): for every metadata map, mapping table and file path:
if some key has a truthy mapping to a different target that is defined
in the source map, the mapper raises `FieldMappingConflictError` naming
such a key, its target and the file — unconditionally; otherwise,
provided the induced renaming (truthy mapped target different from the
key, else the key itself) is collision-free on the map's entries, it
returns the map with each such key renamed and all other keys passed
through under their original names.  (The original claim, without the
truthiness and collision-freedom provisos on the success branch, is
refuted by `claim_C3_counterexample`.) -/
theorem claim_C3_field_mapper (metadata : JSObject) (mappings : FieldMappings)
    (f : String) :
    ((∃ p ∈ metadata, conflictsAt metadata mappings p.1) →
      ∃ e, applyFieldMappings metadata mappings f = Except.error e ∧
        conflictsAt metadata mappings e.quartoField ∧
        mappings e.quartoField = some e.mappedField ∧ e.filePath = f) ∧
    ((∀ p ∈ metadata, ¬ conflictsAt metadata mappings p.1) →
      (metadata.map (fun p => mappedName mappings p.1)).Nodup →
      applyFieldMappings metadata mappings f
        = Except.ok (metadata.map (fun p => (mappedName mappings p.1, p.2)))) := by
  constructor
  · intro hex
    obtain ⟨e, he, hc, hm, _, hf⟩ :=
      applyFieldMappingsGo_error metadata mappings f metadata [] hex
    exact ⟨e, he, hc, hm, hf⟩
  · intro hnoc hren
    have h := applyFieldMappingsGo_ok metadata mappings f metadata [] hnoc hren
      (fun p _ => rfl)
    simpa [applyFieldMappings] using h

/-- C3 witness, both branches via `claim_C3_field_mapper`: the canonical
conflict — `{date, pubDate}` under the default mappings, where `date`
renames onto the occupied `pubDate` — raises the error, and the default
`date → pubDate` renaming on a conflict-free map succeeds. -/
theorem claim_C3_witness :
    (∃ e, applyFieldMappings [("date", Value.vdate 5), ("pubDate", Value.vstr "p")]
        defaultFieldMappings ("f.qmd") = Except.error e ∧
      conflictsAt [("date", Value.vdate 5), ("pubDate", Value.vstr "p")]
        defaultFieldMappings e.quartoField ∧
      defaultFieldMappings e.quartoField = some e.mappedField ∧
      e.filePath = "f.qmd") ∧
    applyFieldMappings [("date", Value.vdate 5), ("x", Value.vstr "y")]
      defaultFieldMappings ("f.qmd")
      = Except.ok [("pubDate", Value.vdate 5), ("x", Value.vstr "y")] :=
  ⟨(claim_C3_field_mapper [("date", Value.vdate 5), ("pubDate", Value.vstr "p")]
      defaultFieldMappings ("f.qmd")).1 (by decide),
   (claim_C3_field_mapper [("date", Value.vdate 5), ("x", Value.vstr "y")]
      defaultFieldMappings ("f.qmd")).2 (by decide) (by decide)⟩

/-- C3 counterexample: with `{"a": "x", "b": "y"}` and a table mapping
both `a` and `b` to `c`, no key satisfies the claim's conflict condition
(`c` is not defined in the source map), so the claim requires the result
to hold both entries under their renamed keys; the code instead returns
the single entry `{"c": "y"}` — the pair `("a", "x")` is silently
overwritten, so the claim as stated is false. -/
theorem claim_C3_counterexample :
    applyFieldMappings [("a", Value.vstr "x"), ("b", Value.vstr "y")]
      (fun k => if k = "a" then some "c" else if k = "b" then some "c" else none)
      ("post.qmd") = Except.ok [("c", Value.vstr "y")] ∧
    ([("a", Value.vstr "x"), ("b", Value.vstr "y")] : JSObject).length = 2 ∧
    ([("c", Value.vstr "y")] : JSObject).length = 1 :=
  ⟨rfl, rfl, rfl⟩

/-- C7 (amended): deriving the identifier again from a derived result
yields the same string provided the derived result does not itself begin
with a `YYYY-MM-DD-` date stamp (the derivation strips only one stamp,
see `claim_C7_counterexample`), and the filename
`2025-11-24-My Cool Post!.qmd` derives to `my-cool-post`. -/
theorem claim_C7_slug_idempotent (p : String)
    (h : startsWithDateStamp (slugFromFilename p).toList = false) :
    slugFromFilename (slugFromFilename p) = slugFromFilename p ∧
    slugFromFilename ("2025-11-24-My Cool Post!.qmd") = "my-cool-post" :=
  ⟨slugFromFilename_fixed _ (fun c hc => slugFromFilename_chars p c hc)
      (slugFromFilename_trim p) h,
   by decide⟩

/-- C7 witness: idempotence at the claim's own example filename, via
`claim_C7_slug_idempotent`. -/
theorem claim_C7_witness :
    slugFromFilename (slugFromFilename ("2025-11-24-My Cool Post!.qmd")) =
      slugFromFilename ("2025-11-24-My Cool Post!.qmd") :=
  (claim_C7_slug_idempotent ("2025-11-24-My Cool Post!.qmd") (by decide)).1

/-- C7 counterexample: the derivation strips only one leading date
stamp, so it is not idempotent on `2020-01-01-2021-02-02-post.qmd`
(first derivation `2021-02-02-post`, second `post`). -/
theorem claim_C7_counterexample :
    slugFromFilename (slugFromFilename ("2020-01-01-2021-02-02-post.qmd")) ≠
      slugFromFilename ("2020-01-01-2021-02-02-post.qmd") := by decide

/-- C8: applying the field mapper with the identity mapping (every key
mapped to itself) returns the metadata map unchanged, and applying it
twice is likewise a no-op. -/
theorem claim_C8_identity_mapping (metadata : JSObject) (f : String)
    (hnodup : (metadata.map Prod.fst).Nodup) :
    applyFieldMappings metadata (fun k => some k) f = Except.ok metadata ∧
    (applyFieldMappings metadata (fun k => some k) f >>= fun m2 =>
      applyFieldMappings m2 (fun k => some k) f) = Except.ok metadata := by
  have hmapped : ∀ k, mappedName (fun k2 => some k2) k = k := by
    intro k
    unfold mappedName
    simp
  have hmapeq : metadata.map (fun p => mappedName (fun k => some k) p.1)
      = metadata.map Prod.fst := by
    apply List.map_congr_left
    intro p _
    exact hmapped p.1
  have hren : (metadata.map (fun p => mappedName (fun k => some k) p.1)).Nodup := by
    rw [hmapeq]; exact hnodup
  have hnoc : ∀ p ∈ metadata, ¬ conflictsAt metadata (fun k => some k) p.1 := by
    intro p _ hc
    exact hc.2.1 rfl
  have hok := applyFieldMappingsGo_ok metadata (fun k => some k) f metadata []
    hnoc hren (fun p _ => rfl)
  have hmap : metadata.map (fun p => (mappedName (fun k => some k) p.1, p.2))
      = metadata := by
    apply map_eq_self_of
    intro p _
    rw [hmapped p.1]
  have h1 : applyFieldMappings metadata (fun k => some k) f = Except.ok metadata := by
    rw [applyFieldMappings, hok, hmap]
    simp
  exact ⟨h1, by rw [h1]; simpa using h1⟩

/-- C8 witness: the identity mapping at a concrete two-field map, via
`claim_C8_identity_mapping`. -/
theorem claim_C8_witness :
    applyFieldMappings [("title", Value.vstr "T"), ("date", Value.vdate 3)]
      (fun k => some k) ("f.qmd")
      = Except.ok [("title", Value.vstr "T"), ("date", Value.vdate 3)] :=
  (claim_C8_identity_mapping [("title", Value.vstr "T"), ("date", Value.vdate 3)]
    ("f.qmd") (by decide)).1

/-- C9: a caller-supplied schema override replaces the inferred schema
wholesale; a (structurally valid, duplicate-free) extension is merged
field-by-field with extension fields winning conflicts; and when the
merge throws, a warning is logged and the unextended inferred schema is
returned unchanged. -/
theorem claim_C9_schema_config (base ov s : Schema) (msg : String)
    (ext : Option ExtendInput) (hnd : (s.map Prod.fst).Nodup) :
    applySchemaConfig base (some ⟨some ov, ext⟩) = (ov, []) ∧
    (applySchemaConfig base (some ⟨none, some (ExtendInput.valid s)⟩)
        = (jsSpread base s, []) ∧
      ∀ k, (jsSpread base s).lookup k
        = match s.lookup k with
          | some t => some t
          | none => base.lookup k) ∧
    applySchemaConfig base (some ⟨none, some (ExtendInput.invalid msg)⟩)
      = (base, ["Schema merge conflict: " ++ msg ++ ". Using base schema."]) :=
  ⟨rfl, ⟨rfl, fun k => lookup_jsSpread s base hnd k⟩, rfl⟩

/-- C9 witness: a concrete override replacing the base schema wholesale,
via `claim_C9_schema_config`. -/
theorem claim_C9_witness :
    applySchemaConfig [("title", ZodType.zstring)]
      (some ⟨some [("x", ZodType.znumber)], none⟩) = ([("x", ZodType.znumber)], []) :=
  (claim_C9_schema_config [("title", ZodType.zstring)] [("x", ZodType.znumber)]
    [("title", ZodType.zboolean)] "m" none (by decide)).1

/-- C10: every `NormalizedEntry` produced by `normalizeMetadata` has its
`slug` equal to its `id` — both are assigned the same `generateSlug`
result on the only success path. -/
theorem claim_C10_slug_equals_id (raw : JSObject) (filePath : String)
    (options : NormalizationOptions) (listingDefaults : Option JSObject)
    (entry : NormalizedEntry)
    (h : normalizeMetadata raw filePath options listingDefaults = Except.ok entry) :
    entry.slug = entry.id := by
  unfold normalizeMetadata at h
  split at h
  all_goals try exact Except.noConfusion h
  all_goals split at h
  all_goals try exact Except.noConfusion h
  all_goals simp only [Except.ok.injEq] at h
  all_goals rw [← h]
  all_goals rfl

/-- C10 witness: a concrete normalization run, via
`claim_C10_slug_equals_id`. -/
theorem claim_C10_witness :
    (NormalizedEntry.mk "hello" "hello"
      [("title", Value.vstr "T"), ("draft", Value.vbool false)]).slug
      = (NormalizedEntry.mk "hello" "hello"
        [("title", Value.vstr "T"), ("draft", Value.vbool false)]).id :=
  claim_C10_slug_equals_id [("title", Value.vstr "T")] "posts/hello.qmd"
    ⟨"", "", (fun k => some k), none, none⟩ none
    (NormalizedEntry.mk "hello" "hello"
      [("title", Value.vstr "T"), ("draft", Value.vbool false)])
    rfl

end QuartoLoader
